import Mathlib

set_option maxHeartbeats 1600000
set_option maxRecDepth 8192

namespace Obrag

/-- Python strings are modelled as lists of characters, so that positions,
slicing, length and concatenation match Python's code-point semantics. -/
abbrev Str : Type := List Char

/-- Embedding of Python `s.startswith(p)` (also used for literal regex
matching at the head of a suffix): `begWith p s` holds when `p` is an
initial segment of `s`. -/
def begWith : Str → Str → Bool
  | [], _ => true
  | _ :: _, [] => false
  | p :: ps, c :: cs => p == c && begWith ps cs

theorem begWith_iff (p : Str) : ∀ s : Str, begWith p s = true ↔ ∃ t, s = p ++ t := by
  induction p with
  | nil => intro s; simp [begWith]
  | cons a ps ih =>
    intro s
    cases s with
    | nil => simp [begWith]
    | cons c cs =>
      simp only [begWith, Bool.and_eq_true, beq_iff_eq, ih, List.cons_append]
      constructor
      · rintro ⟨rfl, t, rfl⟩; exact ⟨t, rfl⟩
      · rintro ⟨t, h⟩
        cases h
        exact ⟨rfl, t, rfl⟩

theorem begWith_append (p s : Str) : begWith p (p ++ s) = true := by
  rw [begWith_iff]; exact ⟨s, rfl⟩

/-- Whether `pat` occurs as a contiguous substring of `s` (Python `pat in s`,
`re.search` of a literal pattern). -/
def hasOcc (pat : Str) : Str → Bool
  | [] => begWith pat []
  | c :: rest => begWith pat (c :: rest) || hasOcc pat rest

theorem hasOcc_iff (pat : Str) : ∀ s : Str, hasOcc pat s = true ↔ ∃ a b, s = a ++ pat ++ b := by
  intro s
  induction s with
  | nil =>
    simp only [hasOcc, begWith_iff]
    constructor
    · rintro ⟨t, h⟩
      exact ⟨[], t, by simpa using h⟩
    · rintro ⟨a, b, h⟩
      exact ⟨a ++ b, by simp at h ⊢; obtain ⟨h1, h2⟩ := h; simp [h1, h2]⟩
  | cons c rest ih =>
    simp only [hasOcc, Bool.or_eq_true, begWith_iff, ih]
    constructor
    · rintro (⟨t, h⟩ | ⟨a, b, h⟩)
      · exact ⟨[], t, by simpa using h⟩
      · exact ⟨c :: a, b, by simp [h]⟩
    · rintro ⟨a, b, h⟩
      cases a with
      | nil => exact Or.inl ⟨b, by simpa using h⟩
      | cons a₀ as =>
        simp only [List.cons_append] at h
        cases h
        exact Or.inr ⟨as, b, rfl⟩

/-- The paragraph separator `"\n\n"` used by `_split_by_paragraphs`. -/
def sepNN : Str := ['\n', '\n']

/-- Prepend a character to the first piece of a split result. -/
def consHead (c : Char) : List Str → List Str
  | [] => [[c]]
  | p :: ps => (c :: p) :: ps

/-- Embedding of Python `text.split("\n\n")`: split on leftmost,
non-overlapping occurrences of the separator. -/
def splitNN : Str → List Str
  | [] => [[]]
  | '\n' :: '\n' :: rest => [] :: splitNN rest
  | c :: rest => consHead c (splitNN rest)

theorem splitNN_ne_nil (s : Str) : splitNN s ≠ [] := by
  induction s using splitNN.induct with
  | case1 => simp [splitNN]
  | case2 rest ih => simp [splitNN]
  | case3 c rest h ih =>
    cases hr : splitNN rest with
    | nil => exact absurd hr ih
    | cons piece pieces => simp [splitNN, h, hr, consHead]

/-- Embedding of Python `sep.join(pieces)`. -/
def joinSep (sep : Str) : List Str → Str
  | [] => []
  | [s] => s
  | s :: t :: rest => s ++ sep ++ joinSep sep (t :: rest)

@[simp] theorem joinSep_nil (sep : Str) : joinSep sep [] = [] := rfl

@[simp] theorem joinSep_single (sep : Str) (s : Str) : joinSep sep [s] = s := rfl

theorem joinSep_cons₂ (sep s t : Str) (rest : List Str) :
    joinSep sep (s :: t :: rest) = s ++ sep ++ joinSep sep (t :: rest) := rfl

theorem joinSep_cons_ne (sep s : Str) (rest : List Str) (h : rest ≠ []) :
    joinSep sep (s :: rest) = s ++ sep ++ joinSep sep rest := by
  cases rest with
  | nil => exact absurd rfl h
  | cons t ts => exact joinSep_cons₂ sep s t ts

theorem joinSep_splitNN (s : Str) : joinSep sepNN (splitNN s) = s := by
  induction s using splitNN.induct with
  | case1 => simp [splitNN]
  | case2 rest ih =>
    rw [splitNN, joinSep_cons_ne sepNN [] (splitNN rest) (splitNN_ne_nil rest), ih]
    simp [sepNN]
  | case3 c rest h ih =>
    rw [splitNN.eq_3 c rest h]
    cases hr : splitNN rest with
    | nil => exact absurd hr (splitNN_ne_nil rest)
    | cons piece pieces =>
      rw [hr] at ih
      cases pieces with
      | nil => simpa [consHead] using ih
      | cons q qs =>
        rw [joinSep_cons₂ sepNN piece q qs] at ih
        rw [consHead, joinSep_cons₂]
        simp only [List.cons_append, List.append_assoc] at ih ⊢
        rw [ih]

theorem joinSep_append (sep : Str) (A B : List Str) (hA : A ≠ []) (hB : B ≠ []) :
    joinSep sep (A ++ B) = joinSep sep A ++ sep ++ joinSep sep B := by
  induction A with
  | nil => exact absurd rfl hA
  | cons a as ih =>
    cases as with
    | nil =>
      rw [List.singleton_append, joinSep_single, joinSep_cons_ne sep a B hB]
    | cons a' as' =>
      have h1 : (a' :: as') ++ B ≠ [] := by simp
      rw [List.cons_append, joinSep_cons_ne sep a ((a' :: as') ++ B) h1,
        joinSep_cons₂ sep a a' as', ih (by simp)]
      simp [List.append_assoc]

/-- Accumulator loop of `_split_by_paragraphs`
(`src/core/preprocessing/markdown_preprocessor.py`, lines 190-211).
State: remaining paragraphs, emitted chunks, current chunk (paragraph list),
`current_size`.  Sizes are integers because Python `int` is unbounded and
`max_size` may be any integer. -/
def sbpGo (max_size : ℤ) : List Str → List Str → List Str → ℤ → List Str
  | [], chunks, current, _ =>
    if current ≠ [] then chunks ++ [joinSep sepNN current] else chunks
  | para :: rest, chunks, current, current_size =>
    if max_size < current_size + para.length + 2 ∧ current ≠ [] then
      sbpGo max_size rest (chunks ++ [joinSep sepNN current]) [para] ((para.length : ℤ) + 2)
    else
      sbpGo max_size rest chunks (current ++ [para]) (current_size + para.length + 2)

/-- Embedding of `_split_by_paragraphs(text, max_size)`: split `text` into
paragraphs at `"\n\n"` and greedily regroup them into chunks of at most
`max_size` characters (a chunk consisting of a single long paragraph may
exceed the bound). -/
def _split_by_paragraphs (text : Str) (max_size : ℤ) : List Str :=
  sbpGo max_size (splitNN text) [] [] 0

theorem sbpGo_join (max_size : ℤ) (paras : List Str) :
    ∀ chunks current current_size, current ≠ [] →
      ∃ pieces, sbpGo max_size paras chunks current current_size = chunks ++ pieces ∧
        pieces ≠ [] ∧ joinSep sepNN pieces = joinSep sepNN (current ++ paras) := by
  induction paras with
  | nil =>
    intro chunks current current_size hc
    exact ⟨[joinSep sepNN current], by simp [sbpGo, hc], by simp, by simp⟩
  | cons p rest ih =>
    intro chunks current current_size hc
    by_cases hcond : max_size < current_size + p.length + 2 ∧ current ≠ []
    · obtain ⟨pieces, heq, hne, hjoin⟩ :=
        ih (chunks ++ [joinSep sepNN current]) [p] ((p.length : ℤ) + 2) (by simp)
      refine ⟨joinSep sepNN current :: pieces, ?_, by simp, ?_⟩
      · rw [sbpGo, if_pos hcond, heq]
        simp [List.append_assoc]
      · rw [joinSep_cons_ne sepNN _ pieces hne, hjoin,
          joinSep_append sepNN current (p :: rest) hc (by simp)]
        have h2 : ([p] ++ rest : List Str) = p :: rest := rfl
        rw [h2]
    · obtain ⟨pieces, heq, hne, hjoin⟩ :=
        ih chunks (current ++ [p]) (current_size + p.length + 2) (by simp)
      refine ⟨pieces, by rw [sbpGo, if_neg hcond]; exact heq, hne, ?_⟩
      rw [hjoin]; simp

/-- C10: `_split_by_paragraphs` is lossless: joining the returned pieces with
`"\n\n"` reproduces the input text exactly, and the returned list is
non-empty — for every text and every `max_size`. -/
theorem C10_split_by_paragraphs_lossless (text : Str) (max_size : ℤ) :
    joinSep sepNN (_split_by_paragraphs text max_size) = text ∧
      _split_by_paragraphs text max_size ≠ [] := by
  unfold _split_by_paragraphs
  cases hs : splitNN text with
  | nil => exact absurd hs (splitNN_ne_nil text)
  | cons p rest =>
    have hstep : sbpGo max_size (p :: rest) [] [] 0 =
        sbpGo max_size rest [] [p] (0 + (p.length : ℤ) + 2) := by
      rw [sbpGo, if_neg (by simp)]
      simp
    obtain ⟨pieces, heq, hpne, hjoin⟩ :=
      sbpGo_join max_size rest [] [p] (0 + (p.length : ℤ) + 2) (by simp)
    rw [hstep, heq]
    refine ⟨?_, by simpa using hpne⟩
    simp only [List.nil_append]
    rw [hjoin]
    have h2 : ([p] ++ rest : List Str) = p :: rest := rfl
    rw [h2, ← hs, joinSep_splitNN]

/-! ### FileTracker (`src/core/sync/file_tracker.py`) -/

/-- Embedding of `FileState`.  `mtime` is modelled as a rational number
(the Python float is only ever compared for equality here) and
`content_hash` as an opaque string (its MD5 computation reads the disk and
is outside the model). -/
structure FileState where
  relative_path : String
  mtime : ℚ
  content_hash : String
deriving DecidableEq

/-- A registry `files` entry as read back from JSON.  `detect_changes`
accesses `mtime` and `content_hash` with `dict.get`, which yields `None`
when a key is absent, so both fields are optional. -/
structure RegEntry where
  content_hash : Option String
  mtime : Option ℚ
  chunk_count : Option ℕ
deriving DecidableEq

/-- The registry `files` dictionary, as an association list (keys are unique
in a real registry; lookups take the first match). -/
abbrev RegFiles := List (String × RegEntry)

def lookupReg : RegFiles → String → Option RegEntry
  | [], _ => none
  | (k, v) :: rest, path => if path = k then some v else lookupReg rest path

/-- Embedding of `ChangeSet`. -/
structure ChangeSet where
  added : List FileState
  modified : List FileState
  deleted : List String
  unchanged : List String
deriving DecidableEq

/-- The loop body of `FileTracker.detect_changes` (lines 146-166), processing
the current files front to back and appending to the `added`, `modified` and
`unchanged` lists: key absent → added; `file_state.mtime ==
reg_info.get("mtime")` → unchanged (fast path, the hash is not consulted);
`file_state.content_hash == reg_info.get("content_hash")` → unchanged;
otherwise modified.  (Python `x == None` is false for a float/str `x`, which
the `some`/`none` comparison reproduces.) -/
def detectGo (registry_files : RegFiles) :
    List FileState → List FileState × List FileState × List String
  | [] => ([], [], [])
  | f :: rest =>
    let r := detectGo registry_files rest
    match lookupReg registry_files f.relative_path with
    | none => (f :: r.1, r.2.1, r.2.2)
    | some reg_info =>
      if reg_info.mtime = some f.mtime then (r.1, r.2.1, f.relative_path :: r.2.2)
      else if reg_info.content_hash = some f.content_hash then
        (r.1, r.2.1, f.relative_path :: r.2.2)
      else (r.1, f :: r.2.1, r.2.2)

/-- Embedding of `FileTracker.detect_changes` (lines 117-173).
`deleted = registry_paths - current_paths` is a Python set difference whose
iteration order is unspecified; it is modelled as the registry key list
filtered to the keys with no current file. -/
def detect_changes (current_files : List FileState) (registry_files : RegFiles) : ChangeSet :=
  let current_paths := current_files.map (fun f => f.relative_path)
  let deleted := (registry_files.map Prod.fst).filter (fun p => decide (p ∉ current_paths))
  let r := detectGo registry_files current_files
  { added := r.1, modified := r.2.1, deleted := deleted, unchanged := r.2.2 }

theorem detectGo_cons_none (registry_files : RegFiles) (f : FileState) (rest : List FileState)
    (h : lookupReg registry_files f.relative_path = none) :
    detectGo registry_files (f :: rest) =
      (f :: (detectGo registry_files rest).1, (detectGo registry_files rest).2.1,
        (detectGo registry_files rest).2.2) := by
  simp [detectGo, h]

theorem detectGo_cons_mtime (registry_files : RegFiles) (f : FileState) (rest : List FileState)
    (e : RegEntry) (h : lookupReg registry_files f.relative_path = some e)
    (h1 : e.mtime = some f.mtime) :
    detectGo registry_files (f :: rest) =
      ((detectGo registry_files rest).1, (detectGo registry_files rest).2.1,
        f.relative_path :: (detectGo registry_files rest).2.2) := by
  simp [detectGo, h, h1]

theorem detectGo_cons_hash (registry_files : RegFiles) (f : FileState) (rest : List FileState)
    (e : RegEntry) (h : lookupReg registry_files f.relative_path = some e)
    (h1 : e.mtime ≠ some f.mtime) (h2 : e.content_hash = some f.content_hash) :
    detectGo registry_files (f :: rest) =
      ((detectGo registry_files rest).1, (detectGo registry_files rest).2.1,
        f.relative_path :: (detectGo registry_files rest).2.2) := by
  simp [detectGo, h, h1, h2]

theorem detectGo_cons_mod (registry_files : RegFiles) (f : FileState) (rest : List FileState)
    (e : RegEntry) (h : lookupReg registry_files f.relative_path = some e)
    (h1 : e.mtime ≠ some f.mtime) (h2 : e.content_hash ≠ some f.content_hash) :
    detectGo registry_files (f :: rest) =
      ((detectGo registry_files rest).1, f :: (detectGo registry_files rest).2.1,
        (detectGo registry_files rest).2.2) := by
  simp [detectGo, h, h1, h2]

theorem detectGo_cases (registry_files : RegFiles) (f : FileState) (rest : List FileState) :
    detectGo registry_files (f :: rest) =
        (f :: (detectGo registry_files rest).1, (detectGo registry_files rest).2.1,
          (detectGo registry_files rest).2.2) ∨
    detectGo registry_files (f :: rest) =
        ((detectGo registry_files rest).1, (detectGo registry_files rest).2.1,
          f.relative_path :: (detectGo registry_files rest).2.2) ∨
    detectGo registry_files (f :: rest) =
        ((detectGo registry_files rest).1, f :: (detectGo registry_files rest).2.1,
          (detectGo registry_files rest).2.2) := by
  cases h : lookupReg registry_files f.relative_path with
  | none => exact Or.inl (detectGo_cons_none _ _ _ h)
  | some e =>
    by_cases h1 : e.mtime = some f.mtime
    · exact Or.inr (Or.inl (detectGo_cons_mtime _ _ _ e h h1))
    · by_cases h2 : e.content_hash = some f.content_hash
      · exact Or.inr (Or.inl (detectGo_cons_hash _ _ _ e h h1 h2))
      · exact Or.inr (Or.inr (detectGo_cons_mod _ _ _ e h h1 h2))

theorem detectGo_length (registry_files : RegFiles) (current : List FileState) :
    (detectGo registry_files current).1.length + (detectGo registry_files current).2.1.length +
      (detectGo registry_files current).2.2.length = current.length := by
  induction current with
  | nil => rfl
  | cons f rest ih =>
    rcases detectGo_cases registry_files f rest with h | h | h <;>
      rw [h] <;> simp only [List.length_cons] <;> omega

theorem detectGo_mono (registry_files : RegFiles) (f : FileState) (rest : List FileState) :
    ((detectGo registry_files rest).1 ⊆ (detectGo registry_files (f :: rest)).1) ∧
    ((detectGo registry_files rest).2.1 ⊆ (detectGo registry_files (f :: rest)).2.1) ∧
    ((detectGo registry_files rest).2.2 ⊆ (detectGo registry_files (f :: rest)).2.2) := by
  rcases detectGo_cases registry_files f rest with h | h | h <;> rw [h] <;>
    exact ⟨by intro x hx; first | exact hx | exact List.mem_cons_of_mem _ hx,
           by intro x hx; first | exact hx | exact List.mem_cons_of_mem _ hx,
           by intro x hx; first | exact hx | exact List.mem_cons_of_mem _ hx⟩

theorem detectGo_mem_spec (registry_files : RegFiles) (current : List FileState)
    (f : FileState) (hf : f ∈ current) :
    (lookupReg registry_files f.relative_path = none →
        f ∈ (detectGo registry_files current).1) ∧
    (∀ e, lookupReg registry_files f.relative_path = some e →
        (e.mtime = some f.mtime → f.relative_path ∈ (detectGo registry_files current).2.2) ∧
        (e.mtime ≠ some f.mtime → e.content_hash = some f.content_hash →
            f.relative_path ∈ (detectGo registry_files current).2.2) ∧
        (e.mtime ≠ some f.mtime → e.content_hash ≠ some f.content_hash →
            f ∈ (detectGo registry_files current).2.1)) := by
  induction current with
  | nil => cases hf
  | cons g rest ih =>
    obtain ⟨hsub1, hsub2, hsub3⟩ := detectGo_mono registry_files g rest
    rcases List.mem_cons.mp hf with rfl | hmem
    · constructor
      · intro hnone
        rw [detectGo_cons_none _ _ _ hnone]
        exact List.mem_cons_self _ _
      · intro e he
        refine ⟨?_, ?_, ?_⟩
        · intro h1
          rw [detectGo_cons_mtime _ _ _ e he h1]
          exact List.mem_cons_self _ _
        · intro h1 h2
          rw [detectGo_cons_hash _ _ _ e he h1 h2]
          exact List.mem_cons_self _ _
        · intro h1 h2
          rw [detectGo_cons_mod _ _ _ e he h1 h2]
          exact List.mem_cons_self _ _
    · obtain ⟨ha, hb⟩ := ih hmem
      refine ⟨fun hnone => hsub1 (ha hnone), fun e he => ?_⟩
      obtain ⟨hu1, hu2, hm⟩ := hb e he
      exact ⟨fun h1 => hsub3 (hu1 h1), fun h1 h2 => hsub3 (hu2 h1 h2),
        fun h1 h2 => hsub2 (hm h1 h2)⟩

theorem detectGo_added_sub (registry_files : RegFiles) (current : List FileState) :
    ∀ f ∈ (detectGo registry_files current).1,
      f ∈ current ∧ lookupReg registry_files f.relative_path = none := by
  induction current with
  | nil => intro f hf; cases hf
  | cons g rest ih =>
    intro f hf
    cases hg : lookupReg registry_files g.relative_path with
    | none =>
      rw [detectGo_cons_none _ _ _ hg] at hf
      rcases List.mem_cons.mp hf with rfl | hf'
      · exact ⟨List.mem_cons_self _ _, hg⟩
      · obtain ⟨h1, h2⟩ := ih f hf'
        exact ⟨List.mem_cons_of_mem _ h1, h2⟩
    | some reg_info =>
      by_cases hx : reg_info.mtime = some g.mtime
      · rw [detectGo_cons_mtime _ _ _ reg_info hg hx] at hf
        obtain ⟨h1, h2⟩ := ih f hf
        exact ⟨List.mem_cons_of_mem _ h1, h2⟩
      · by_cases hy : reg_info.content_hash = some g.content_hash
        · rw [detectGo_cons_hash _ _ _ reg_info hg hx hy] at hf
          obtain ⟨h1, h2⟩ := ih f hf
          exact ⟨List.mem_cons_of_mem _ h1, h2⟩
        · rw [detectGo_cons_mod _ _ _ reg_info hg hx hy] at hf
          obtain ⟨h1, h2⟩ := ih f hf
          exact ⟨List.mem_cons_of_mem _ h1, h2⟩

/-- C1: `detect_changes` partitions the current files: a current file whose
path is absent from the registry is added; with equal mtime it is unchanged
(whatever the hashes are, i.e. no hash comparison is needed); with differing
mtime but equal content hash it is unchanged; otherwise it is modified.
`deleted` is exactly the set of registry keys with no current file, and
added, modified and unchanged together account for every current file
exactly once. -/
theorem C1_detect_changes_partition (current_files : List FileState) (registry_files : RegFiles) :
    (∀ f ∈ current_files,
      (lookupReg registry_files f.relative_path = none →
          f ∈ (detect_changes current_files registry_files).added) ∧
      (∀ e, lookupReg registry_files f.relative_path = some e →
        (e.mtime = some f.mtime →
            f.relative_path ∈ (detect_changes current_files registry_files).unchanged) ∧
        (e.mtime ≠ some f.mtime → e.content_hash = some f.content_hash →
            f.relative_path ∈ (detect_changes current_files registry_files).unchanged) ∧
        (e.mtime ≠ some f.mtime → e.content_hash ≠ some f.content_hash →
            f ∈ (detect_changes current_files registry_files).modified))) ∧
    (∀ f ∈ (detect_changes current_files registry_files).added,
        f ∈ current_files ∧ lookupReg registry_files f.relative_path = none) ∧
    (∀ p, p ∈ (detect_changes current_files registry_files).deleted ↔
        p ∈ registry_files.map Prod.fst ∧
          p ∉ current_files.map (fun f => f.relative_path)) ∧
    (detect_changes current_files registry_files).added.length +
        (detect_changes current_files registry_files).modified.length +
        (detect_changes current_files registry_files).unchanged.length =
      current_files.length := by
  refine ⟨?_, ?_, ?_, ?_⟩
  · intro f hf
    exact detectGo_mem_spec registry_files current_files f hf
  · intro f hf
    exact detectGo_added_sub registry_files current_files f hf
  · intro p
    simp [detect_changes, List.mem_filter]
  · exact detectGo_length registry_files current_files

/-- Witness for C1 at concrete data: one added, one touch-only-unchanged,
one mtime-unchanged, one modified file and one deleted registry key. -/
theorem C1_detect_changes_partition_witness :
    (detect_changes
        [⟨"a.md", 1, "h1"⟩, ⟨"b.md", 2, "h2"⟩, ⟨"c.md", 7, "h3"⟩, ⟨"d.md", 9, "h9"⟩]
        [("b.md", ⟨some "old", some 2, some 1⟩),
         ("c.md", ⟨some "h3", some 3, some 1⟩),
         ("d.md", ⟨some "old", some 3, some 1⟩),
         ("gone.md", ⟨some "h0", some 0, some 1⟩)]).added = [⟨"a.md", 1, "h1"⟩] ∧
    (detect_changes
        [⟨"a.md", 1, "h1"⟩, ⟨"b.md", 2, "h2"⟩, ⟨"c.md", 7, "h3"⟩, ⟨"d.md", 9, "h9"⟩]
        [("b.md", ⟨some "old", some 2, some 1⟩),
         ("c.md", ⟨some "h3", some 3, some 1⟩),
         ("d.md", ⟨some "old", some 3, some 1⟩),
         ("gone.md", ⟨some "h0", some 0, some 1⟩)]).unchanged = ["b.md", "c.md"] ∧
    (detect_changes
        [⟨"a.md", 1, "h1"⟩, ⟨"b.md", 2, "h2"⟩, ⟨"c.md", 7, "h3"⟩, ⟨"d.md", 9, "h9"⟩]
        [("b.md", ⟨some "old", some 2, some 1⟩),
         ("c.md", ⟨some "h3", some 3, some 1⟩),
         ("d.md", ⟨some "old", some 3, some 1⟩),
         ("gone.md", ⟨some "h0", some 0, some 1⟩)]).modified = [⟨"d.md", 9, "h9"⟩] ∧
    (detect_changes
        [⟨"a.md", 1, "h1"⟩, ⟨"b.md", 2, "h2"⟩, ⟨"c.md", 7, "h3"⟩, ⟨"d.md", 9, "h9"⟩]
        [("b.md", ⟨some "old", some 2, some 1⟩),
         ("c.md", ⟨some "h3", some 3, some 1⟩),
         ("d.md", ⟨some "old", some 3, some 1⟩),
         ("gone.md", ⟨some "h0", some 0, some 1⟩)]).deleted = ["gone.md"] ∧
    1 + 1 + 2 = 4 ∧
    (detect_changes
        [⟨"a.md", 1, "h1"⟩, ⟨"b.md", 2, "h2"⟩, ⟨"c.md", 7, "h3"⟩, ⟨"d.md", 9, "h9"⟩]
        [("b.md", ⟨some "old", some 2, some 1⟩),
         ("c.md", ⟨some "h3", some 3, some 1⟩),
         ("d.md", ⟨some "old", some 3, some 1⟩),
         ("gone.md", ⟨some "h0", some 0, some 1⟩)]).added.length = 1 := by
  have h := C1_detect_changes_partition
    [⟨"a.md", 1, "h1"⟩, ⟨"b.md", 2, "h2"⟩, ⟨"c.md", 7, "h3"⟩, ⟨"d.md", 9, "h9"⟩]
    [("b.md", ⟨some "old", some 2, some 1⟩),
     ("c.md", ⟨some "h3", some 3, some 1⟩),
     ("d.md", ⟨some "old", some 3, some 1⟩),
     ("gone.md", ⟨some "h0", some 0, some 1⟩)]
  refine ⟨by decide, by decide, by decide, by decide, by decide, ?_⟩
  have h4 := h.2.2.2
  decide

/-! ### IncrementalSyncer (`src/core/sync/incremental_syncer.py`) -/

/-- Embedding of `SyncResult` (counts only; `errors` stays empty on the
success path modelled here). -/
structure SyncResult where
  added : ℕ
  modified : ℕ
  deleted : ℕ
  skipped : ℕ
  total_chunks : ℕ
deriving DecidableEq

/-- Replace the entry for an existing key in place. -/
def setEntry : RegFiles → String → RegEntry → RegFiles
  | [], _, _ => []
  | (k, v) :: rest, path, e =>
    if k = path then (path, e) :: setEntry rest path e else (k, v) :: setEntry rest path e

/-- Embedding of `SyncRegistry.update_file_info` (`sync_registry.py`, lines
106-127): assign `files[relative_path] = {content_hash, mtime, chunk_count,
last_synced}` (the wall-clock `last_synced` string is outside the model).
A Python dict assignment overwrites the value in place when the key exists
and appends a new key otherwise. -/
def update_file_info (reg : RegFiles) (path : String) (content_hash : String)
    (mtime : ℚ) (chunk_count : ℕ) : RegFiles :=
  let e : RegEntry := ⟨some content_hash, some mtime, some chunk_count⟩
  if (lookupReg reg path).isSome then setEntry reg path e else reg ++ [(path, e)]

/-- Embedding of `SyncRegistry.remove_file_info` (lines 129-142): delete the
key if present. -/
def remove_file_info (reg : RegFiles) (path : String) : RegFiles :=
  reg.filter (fun pr => pr.1 ≠ path)

/-- Embedding of `IncrementalSyncer.sync` (lines 100-174) on its success
path.  Disk reads, chunking and the vector store are abstracted:
`chunkCount p` is the number of chunks `_process_file` produces and upserts
for path `p` (a pure function of the file's content, hence of the path for
a fixed tree); per-file exceptions do not occur in the model, and
`Registry.save()` has no effect on the in-memory registry.  The result is
the `SyncResult` together with the registry after the cycle. -/
def sync (chunkCount : String → ℕ) (current_states : List FileState) (reg0 : RegFiles) :
    SyncResult × RegFiles :=
  let changes := detect_changes current_states reg0
  let reg1 := changes.added.foldl (fun r f =>
    update_file_info r f.relative_path f.content_hash f.mtime (chunkCount f.relative_path)) reg0
  let reg2 := changes.modified.foldl (fun r f =>
    update_file_info r f.relative_path f.content_hash f.mtime (chunkCount f.relative_path)) reg1
  let reg3 := changes.deleted.foldl remove_file_info reg2
  ({ added := changes.added.length
     modified := changes.modified.length
     deleted := changes.deleted.length
     skipped := changes.unchanged.length
     total_chunks := (changes.added ++ changes.modified).foldl
       (fun n f => n + chunkCount f.relative_path) 0 },
   reg3)

theorem lookupReg_eq_none_iff (p : String) :
    ∀ reg : RegFiles, lookupReg reg p = none ↔ p ∉ reg.map Prod.fst := by
  intro reg
  induction reg with
  | nil => simp [lookupReg]
  | cons pr rest ih =>
    obtain ⟨k, v⟩ := pr
    by_cases h : p = k
    · simp [lookupReg, h]
    · simp [lookupReg, h, ih]

theorem lookupReg_setEntry_ne (q p : String) (e : RegEntry) (h : p ≠ q) :
    ∀ reg : RegFiles, lookupReg (setEntry reg q e) p = lookupReg reg p := by
  intro reg
  induction reg with
  | nil => rfl
  | cons pr rest ih =>
    obtain ⟨k, v⟩ := pr
    by_cases hk : k = q
    · simp [setEntry, hk, lookupReg, h, ih]
    · by_cases hp : p = k
      · simp [setEntry, hk, lookupReg, hp]
      · simp [setEntry, hk, lookupReg, hp, ih]

theorem lookupReg_setEntry_self (q : String) (e : RegEntry) :
    ∀ reg : RegFiles, (lookupReg reg q).isSome → lookupReg (setEntry reg q e) q = some e := by
  intro reg
  induction reg with
  | nil => intro h; simp [lookupReg] at h
  | cons pr rest ih =>
    obtain ⟨k, v⟩ := pr
    intro h
    by_cases hk : k = q
    · simp [setEntry, hk, lookupReg]
    · have hq : ¬ q = k := fun hh => hk hh.symm
      simp only [lookupReg, if_neg hq] at h
      simp [setEntry, hk, lookupReg, hq, ih h]

theorem lookupReg_append_single (q : String) (e : RegEntry) :
    ∀ reg : RegFiles, lookupReg reg q = none → lookupReg (reg ++ [(q, e)]) q = some e := by
  intro reg
  induction reg with
  | nil => intro _; simp [lookupReg]
  | cons pr rest ih =>
    obtain ⟨k, v⟩ := pr
    intro h
    by_cases hq : q = k
    · simp [lookupReg, hq] at h
    · simp only [lookupReg, if_neg hq] at h
      simp [lookupReg, hq, ih h]

theorem lookupReg_append_single_ne (q p : String) (e : RegEntry) (h : p ≠ q) :
    ∀ reg : RegFiles, lookupReg (reg ++ [(q, e)]) p = lookupReg reg p := by
  intro reg
  induction reg with
  | nil => simp [lookupReg, h]
  | cons pr rest ih =>
    obtain ⟨k, v⟩ := pr
    by_cases hp : p = k
    · simp [lookupReg, hp]
    · simp [lookupReg, hp, ih]

theorem lookupReg_update_self (reg : RegFiles) (q : String) (ch : String) (mt : ℚ) (cc : ℕ) :
    lookupReg (update_file_info reg q ch mt cc) q = some ⟨some ch, some mt, some cc⟩ := by
  unfold update_file_info
  by_cases h : (lookupReg reg q).isSome
  · rw [if_pos h]
    exact lookupReg_setEntry_self q _ reg h
  · rw [if_neg h]
    exact lookupReg_append_single q _ reg (Option.not_isSome_iff_eq_none.mp h)

theorem lookupReg_update_ne (reg : RegFiles) (q p : String) (ch : String) (mt : ℚ) (cc : ℕ)
    (h : p ≠ q) :
    lookupReg (update_file_info reg q ch mt cc) p = lookupReg reg p := by
  unfold update_file_info
  by_cases hs : (lookupReg reg q).isSome
  · rw [if_pos hs]; exact lookupReg_setEntry_ne q p _ h reg
  · rw [if_neg hs]; exact lookupReg_append_single_ne q p _ h reg

theorem keys_setEntry_sub (q : String) (e : RegEntry) :
    ∀ reg : RegFiles, ∀ p ∈ (setEntry reg q e).map Prod.fst,
      p ∈ reg.map Prod.fst ∨ p = q := by
  intro reg
  induction reg with
  | nil => intro p hp; cases hp
  | cons pr rest ih =>
    obtain ⟨k, v⟩ := pr
    intro p hp
    by_cases hk : k = q
    · simp only [setEntry, if_pos hk, List.map_cons, List.mem_cons] at hp
      rcases hp with rfl | hp
      · exact Or.inr rfl
      · rcases ih p hp with h1 | h1
        · exact Or.inl (by simp [h1])
        · exact Or.inr h1
    · simp only [setEntry, if_neg hk, List.map_cons, List.mem_cons] at hp
      rcases hp with rfl | hp
      · exact Or.inl (by simp)
      · rcases ih p hp with h1 | h1
        · exact Or.inl (by simp [h1])
        · exact Or.inr h1

theorem keys_update_sub (reg : RegFiles) (q : String) (ch : String) (mt : ℚ) (cc : ℕ) :
    ∀ p ∈ (update_file_info reg q ch mt cc).map Prod.fst, p ∈ reg.map Prod.fst ∨ p = q := by
  intro p hp
  unfold update_file_info at hp
  by_cases hs : (lookupReg reg q).isSome
  · rw [if_pos hs] at hp
    exact keys_setEntry_sub q _ reg p hp
  · rw [if_neg hs] at hp
    simp only [List.map_append, List.mem_append, List.map_cons, List.map_nil,
      List.mem_cons, List.not_mem_nil, or_false] at hp
    rcases hp with hp | hp
    · exact Or.inl hp
    · exact Or.inr hp

theorem keys_remove_sub (reg : RegFiles) (q : String) :
    ∀ p ∈ (remove_file_info reg q).map Prod.fst, p ∈ reg.map Prod.fst ∧ p ≠ q := by
  intro p hp
  simp only [remove_file_info] at hp
  obtain ⟨pr, hpr, rfl⟩ := List.mem_map.mp hp
  have h1 := List.mem_filter.mp hpr
  exact ⟨List.mem_map_of_mem Prod.fst h1.1, by simpa using h1.2⟩

theorem detectGo_modified_sub (registry_files : RegFiles) (current : List FileState) :
    ∀ f ∈ (detectGo registry_files current).2.1,
      f ∈ current ∧ ∃ e, lookupReg registry_files f.relative_path = some e ∧
        e.mtime ≠ some f.mtime ∧ e.content_hash ≠ some f.content_hash := by
  induction current with
  | nil => intro f hf; cases hf
  | cons g rest ih =>
    intro f hf
    cases hg : lookupReg registry_files g.relative_path with
    | none =>
      rw [detectGo_cons_none _ _ _ hg] at hf
      obtain ⟨h1, h2⟩ := ih f hf
      exact ⟨List.mem_cons_of_mem _ h1, h2⟩
    | some reg_info =>
      by_cases hx : reg_info.mtime = some g.mtime
      · rw [detectGo_cons_mtime _ _ _ reg_info hg hx] at hf
        obtain ⟨h1, h2⟩ := ih f hf
        exact ⟨List.mem_cons_of_mem _ h1, h2⟩
      · by_cases hy : reg_info.content_hash = some g.content_hash
        · rw [detectGo_cons_hash _ _ _ reg_info hg hx hy] at hf
          obtain ⟨h1, h2⟩ := ih f hf
          exact ⟨List.mem_cons_of_mem _ h1, h2⟩
        · rw [detectGo_cons_mod _ _ _ reg_info hg hx hy] at hf
          rcases List.mem_cons.mp hf with rfl | hf'
          · exact ⟨List.mem_cons_self _ _, reg_info, hg, hx, hy⟩
          · obtain ⟨h1, h2⟩ := ih f hf'
            exact ⟨List.mem_cons_of_mem _ h1, h2⟩

theorem detectGo_sublists (registry_files : RegFiles) (current : List FileState) :
    List.Sublist (detectGo registry_files current).1 current ∧
      List.Sublist (detectGo registry_files current).2.1 current := by
  induction current with
  | nil => exact ⟨List.Sublist.refl _, List.Sublist.refl _⟩
  | cons f rest ih =>
    rcases detectGo_cases registry_files f rest with h | h | h <;> rw [h]
    · exact ⟨ih.1.cons₂ f, ih.2.cons f⟩
    · exact ⟨ih.1.cons f, ih.2.cons f⟩
    · exact ⟨ih.1.cons f, ih.2.cons₂ f⟩

/-- The per-file registry write performed by `_process_file` for a file
state `f` when chunking yields `chunkCount f.relative_path` chunks. -/
def updState (chunkCount : String → ℕ) (r : RegFiles) (f : FileState) : RegFiles :=
  update_file_info r f.relative_path f.content_hash f.mtime (chunkCount f.relative_path)

theorem foldl_upd_not_mem (cc : String → ℕ) (L : List FileState) :
    ∀ reg p, p ∉ L.map (fun f => f.relative_path) →
      lookupReg (L.foldl (updState cc) reg) p = lookupReg reg p := by
  induction L with
  | nil => intro reg p _; rfl
  | cons g rest ih =>
    intro reg p hp
    simp only [List.map_cons, List.mem_cons, not_or] at hp
    rw [List.foldl_cons, ih _ p hp.2]
    exact lookupReg_update_ne reg g.relative_path p _ _ _ hp.1

theorem foldl_upd_mem (cc : String → ℕ) (L : List FileState)
    (hnd : (L.map (fun f => f.relative_path)).Nodup) :
    ∀ reg, ∀ f ∈ L, lookupReg (L.foldl (updState cc) reg) f.relative_path =
      some ⟨some f.content_hash, some f.mtime, some (cc f.relative_path)⟩ := by
  induction L with
  | nil => intro reg f hf; cases hf
  | cons g rest ih =>
    intro reg f hf
    simp only [List.map_cons, List.nodup_cons] at hnd
    rcases List.mem_cons.mp hf with rfl | hf'
    · rw [List.foldl_cons, foldl_upd_not_mem cc rest _ _ hnd.1]
      exact lookupReg_update_self reg f.relative_path _ _ _
    · rw [List.foldl_cons]
      exact ih hnd.2 _ f hf'

theorem foldl_upd_keys (cc : String → ℕ) (L : List FileState) :
    ∀ reg p, p ∈ (L.foldl (updState cc) reg).map Prod.fst →
      p ∈ reg.map Prod.fst ∨ p ∈ L.map (fun f => f.relative_path) := by
  induction L with
  | nil => intro reg p hp; exact Or.inl hp
  | cons g rest ih =>
    intro reg p hp
    rw [List.foldl_cons] at hp
    rcases ih _ p hp with h1 | h1
    · rcases keys_update_sub reg g.relative_path _ _ _ p h1 with h2 | h2
      · exact Or.inl h2
      · exact Or.inr (by simp [h2])
    · exact Or.inr (by simp [h1])

theorem lookupReg_remove_ne (q p : String) (h : p ≠ q) :
    ∀ reg : RegFiles, lookupReg (remove_file_info reg q) p = lookupReg reg p := by
  intro reg
  induction reg with
  | nil => rfl
  | cons pr rest ih =>
    obtain ⟨k, v⟩ := pr
    simp only [remove_file_info, List.filter_cons] at *
    by_cases hk : k = q
    · have hpk : ¬ p = k := by rw [hk]; exact h
      rw [if_neg (by simp [hk])]
      rw [show lookupReg ((k, v) :: rest) p = lookupReg rest p from by simp [lookupReg, hpk]]
      exact ih
    · rw [if_pos (by simp [hk])]
      by_cases hp : p = k
      · simp [lookupReg, hp]
      · simp only [lookupReg, if_neg hp]
        exact ih

theorem foldl_remove_not_mem (D : List String) :
    ∀ reg p, p ∉ D → lookupReg (D.foldl remove_file_info reg) p = lookupReg reg p := by
  induction D with
  | nil => intro reg p _; rfl
  | cons d rest ih =>
    intro reg p hp
    simp only [List.mem_cons, not_or] at hp
    rw [List.foldl_cons, ih _ p hp.2]
    exact lookupReg_remove_ne d p hp.1 reg

theorem foldl_remove_keys (D : List String) :
    ∀ reg p, p ∈ (D.foldl remove_file_info reg).map Prod.fst →
      p ∈ reg.map Prod.fst ∧ p ∉ D := by
  induction D with
  | nil => intro reg p hp; exact ⟨hp, by simp⟩
  | cons d rest ih =>
    intro reg p hp
    rw [List.foldl_cons] at hp
    obtain ⟨h1, h2⟩ := ih _ p hp
    obtain ⟨h3, h4⟩ := keys_remove_sub reg d p h1
    exact ⟨h3, by simp [h2, h4]⟩

theorem sync_registry_spec (cc : String → ℕ) (states : List FileState) (reg0 : RegFiles)
    (hnd : (states.map (fun f => f.relative_path)).Nodup) :
    (∀ f ∈ states, ∃ e, lookupReg (sync cc states reg0).2 f.relative_path = some e ∧
        (e.mtime = some f.mtime ∨ e.content_hash = some f.content_hash)) ∧
    (∀ p ∈ (sync cc states reg0).2.map Prod.fst,
        p ∈ states.map (fun f => f.relative_path)) := by
  have hinj := List.inj_on_of_nodup_map hnd
  set ch := detect_changes states reg0 with hch
  have hAsub : ∀ f ∈ ch.added, f ∈ states ∧ lookupReg reg0 f.relative_path = none :=
    detectGo_added_sub reg0 states
  have hMsub : ∀ f ∈ ch.modified, f ∈ states ∧ ∃ e,
      lookupReg reg0 f.relative_path = some e ∧
        e.mtime ≠ some f.mtime ∧ e.content_hash ≠ some f.content_hash :=
    detectGo_modified_sub reg0 states
  have hDel : ∀ p, p ∈ ch.deleted ↔ p ∈ reg0.map Prod.fst ∧
      p ∉ states.map (fun f => f.relative_path) := by
    intro p; simp [hch, detect_changes, List.mem_filter]
  have hAnd : (ch.added.map (fun f => f.relative_path)).Nodup :=
    ((detectGo_sublists reg0 states).1.map _).nodup hnd
  have hMnd : (ch.modified.map (fun f => f.relative_path)).Nodup :=
    ((detectGo_sublists reg0 states).2.map _).nodup hnd
  have hsync : (sync cc states reg0).2 =
      ch.deleted.foldl remove_file_info
        (ch.modified.foldl (updState cc) (ch.added.foldl (updState cc) reg0)) := rfl
  set reg1 := ch.added.foldl (updState cc) reg0 with hreg1
  set reg2 := ch.modified.foldl (updState cc) reg1 with hreg2
  set reg3 := ch.deleted.foldl remove_file_info reg2 with hreg3
  -- a path of a current file is never in `deleted`
  have hfdel : ∀ f ∈ states, f.relative_path ∉ ch.deleted := by
    intro f hf hmem
    exact ((hDel f.relative_path).mp hmem).2 (List.mem_map_of_mem _ hf)
  constructor
  · intro f hf
    have hspec := detectGo_mem_spec reg0 states f hf
    cases hlk : lookupReg reg0 f.relative_path with
    | none =>
      -- added: the fold over `added` writes the fresh entry
      have hfadd : f ∈ ch.added := hspec.1 hlk
      have h1 : lookupReg reg1 f.relative_path =
          some ⟨some f.content_hash, some f.mtime, some (cc f.relative_path)⟩ :=
        foldl_upd_mem cc ch.added hAnd reg0 f hfadd
      have hfnotmod : f.relative_path ∉ ch.modified.map (fun g => g.relative_path) := by
        intro hmem
        obtain ⟨g, hg, hgp⟩ := List.mem_map.mp hmem
        obtain ⟨_, e, hge, _⟩ := hMsub g hg
        rw [hgp] at hge
        rw [hlk] at hge
        cases hge
      have h2 : lookupReg reg2 f.relative_path = _ := foldl_upd_not_mem cc ch.modified reg1 _ hfnotmod
      rw [hsync, hreg3, foldl_remove_not_mem ch.deleted reg2 _ (hfdel f hf), h2, h1]
      exact ⟨_, rfl, Or.inl rfl⟩
    | some e0 =>
      by_cases hmt : e0.mtime = some f.mtime
      · -- unchanged via mtime: no write touches this path
        have hnotadd : f.relative_path ∉ ch.added.map (fun g => g.relative_path) := by
          intro hmem
          obtain ⟨g, hg, hgp⟩ := List.mem_map.mp hmem
          have := (hAsub g hg).2
          rw [hgp, hlk] at this
          cases this
        have hnotmod : f.relative_path ∉ ch.modified.map (fun g => g.relative_path) := by
          intro hmem
          obtain ⟨g, hg, hgp⟩ := List.mem_map.mp hmem
          have hgf : g = f := hinj (hMsub g hg).1 hf hgp
          subst hgf
          obtain ⟨_, e, hge, hgm, _⟩ := hMsub g hg
          rw [hlk] at hge
          cases hge
          exact hgm hmt
        rw [hsync, hreg3, foldl_remove_not_mem ch.deleted reg2 _ (hfdel f hf), hreg2,
          foldl_upd_not_mem cc ch.modified reg1 _ hnotmod, hreg1,
          foldl_upd_not_mem cc ch.added reg0 _ hnotadd, hlk]
        exact ⟨e0, rfl, Or.inl hmt⟩
      · by_cases hhs : e0.content_hash = some f.content_hash
        · -- unchanged via hash: no write touches this path
          have hnotadd : f.relative_path ∉ ch.added.map (fun g => g.relative_path) := by
            intro hmem
            obtain ⟨g, hg, hgp⟩ := List.mem_map.mp hmem
            have := (hAsub g hg).2
            rw [hgp, hlk] at this
            cases this
          have hnotmod : f.relative_path ∉ ch.modified.map (fun g => g.relative_path) := by
            intro hmem
            obtain ⟨g, hg, hgp⟩ := List.mem_map.mp hmem
            have hgf : g = f := hinj (hMsub g hg).1 hf hgp
            subst hgf
            obtain ⟨_, e, hge, _, hgh⟩ := hMsub g hg
            rw [hlk] at hge
            cases hge
            exact hgh hhs
          rw [hsync, hreg3, foldl_remove_not_mem ch.deleted reg2 _ (hfdel f hf), hreg2,
            foldl_upd_not_mem cc ch.modified reg1 _ hnotmod, hreg1,
            foldl_upd_not_mem cc ch.added reg0 _ hnotadd, hlk]
          exact ⟨e0, rfl, Or.inr hhs⟩
        · -- modified: the fold over `modified` writes the fresh entry
          have hfmod : f ∈ ch.modified := ((hspec.2 e0 hlk).2.2) hmt hhs
          have h2 : lookupReg reg2 f.relative_path =
              some ⟨some f.content_hash, some f.mtime, some (cc f.relative_path)⟩ :=
            foldl_upd_mem cc ch.modified hMnd reg1 f hfmod
          rw [hsync, hreg3, foldl_remove_not_mem ch.deleted reg2 _ (hfdel f hf), h2]
          exact ⟨_, rfl, Or.inl rfl⟩
  · intro p hp
    rw [hsync, hreg3] at hp
    obtain ⟨hp2, hpdel⟩ := foldl_remove_keys ch.deleted reg2 p hp
    rw [hreg2] at hp2
    rcases foldl_upd_keys cc ch.modified reg1 p hp2 with hp1 | hp1
    · rw [hreg1] at hp1
      rcases foldl_upd_keys cc ch.added reg0 p hp1 with hp0 | hp0
      · by_contra hnot
        exact hpdel ((hDel p).mpr ⟨hp0, hnot⟩)
      · obtain ⟨g, hg, rfl⟩ := List.mem_map.mp hp0
        exact List.mem_map_of_mem _ (hAsub g hg).1
    · obtain ⟨g, hg, rfl⟩ := List.mem_map.mp hp1
      exact List.mem_map_of_mem _ (hMsub g hg).1

/-- C2: sync is idempotent on an unchanged tree.  If the scan of the vault
produces the same file states twice in a row (no file was added, edited,
touched or removed between the runs, and paths are distinct as they are on a
real filesystem), the second `sync()` reports `added = modified = deleted = 0`
and `skipped` equal to the number of scanned files. -/
theorem C2_sync_idempotent (chunkCount : String → ℕ) (states : List FileState)
    (reg0 : RegFiles) (hnd : (states.map (fun f => f.relative_path)).Nodup) :
    (sync chunkCount states (sync chunkCount states reg0).2).1.added = 0 ∧
    (sync chunkCount states (sync chunkCount states reg0).2).1.modified = 0 ∧
    (sync chunkCount states (sync chunkCount states reg0).2).1.deleted = 0 ∧
    (sync chunkCount states (sync chunkCount states reg0).2).1.skipped = states.length := by
  obtain ⟨hlook, hkeys⟩ := sync_registry_spec chunkCount states reg0 hnd
  set reg1 := (sync chunkCount states reg0).2 with hreg1
  set ch2 := detect_changes states reg1 with hch2
  have hadded : ch2.added = [] := by
    rw [List.eq_nil_iff_forall_not_mem]
    intro f hf
    obtain ⟨hfs, hnone⟩ := detectGo_added_sub reg1 states f hf
    obtain ⟨e, he, _⟩ := hlook f hfs
    rw [hnone] at he
    cases he
  have hmodified : ch2.modified = [] := by
    rw [List.eq_nil_iff_forall_not_mem]
    intro f hf
    obtain ⟨hfs, e, he, hm, hh⟩ := detectGo_modified_sub reg1 states f hf
    obtain ⟨e', he', hdisj⟩ := hlook f hfs
    rw [he] at he'
    cases he'
    rcases hdisj with h | h
    · exact hm h
    · exact hh h
  have hdeleted : ch2.deleted = [] := by
    rw [List.eq_nil_iff_forall_not_mem]
    intro p hp
    have : p ∈ reg1.map Prod.fst ∧ p ∉ states.map (fun f => f.relative_path) := by
      simpa [hch2, detect_changes, List.mem_filter] using hp
    exact this.2 (hkeys p this.1)
  have hres : (sync chunkCount states reg1).1 =
      { added := ch2.added.length, modified := ch2.modified.length,
        deleted := ch2.deleted.length, skipped := ch2.unchanged.length,
        total_chunks := (ch2.added ++ ch2.modified).foldl
          (fun n f => n + chunkCount f.relative_path) 0 } := rfl
  have hlen := detectGo_length reg1 states
  have hu : ch2.unchanged.length = states.length := by
    have ha : ch2.added.length = 0 := by rw [hadded]; rfl
    have hm : ch2.modified.length = 0 := by rw [hmodified]; rfl
    have : ch2.added.length + ch2.modified.length + ch2.unchanged.length = states.length := hlen
    omega
  rw [hres]
  refine ⟨by simp [hadded], by simp [hmodified], by simp [hdeleted], by simpa using hu⟩

/-- Witness for C2 at concrete data: a vault of two files, one already in
the registry unchanged, one new; the second run skips both. -/
theorem C2_sync_idempotent_witness :
    (([⟨"a.md", 1, "h1"⟩, ⟨"b.md", 2, "h2"⟩] : List FileState).map
        (fun f => f.relative_path)).Nodup ∧
    (sync (fun _ => 2)
        [⟨"a.md", 1, "h1"⟩, ⟨"b.md", 2, "h2"⟩]
        (sync (fun _ => 2) [⟨"a.md", 1, "h1"⟩, ⟨"b.md", 2, "h2"⟩]
          [("a.md", ⟨some "h1", some 1, some 2⟩)]).2).1.added = 0 ∧
    (sync (fun _ => 2)
        [⟨"a.md", 1, "h1"⟩, ⟨"b.md", 2, "h2"⟩]
        (sync (fun _ => 2) [⟨"a.md", 1, "h1"⟩, ⟨"b.md", 2, "h2"⟩]
          [("a.md", ⟨some "h1", some 1, some 2⟩)]).2).1.skipped = 2 := by
  have h := C2_sync_idempotent (fun _ => 2)
    [⟨"a.md", 1, "h1"⟩, ⟨"b.md", 2, "h2"⟩]
    [("a.md", ⟨some "h1", some 1, some 2⟩)]
    (by simp)
  exact ⟨by simp, h.1, h.2.2.2⟩

/-! ### Retriever (`src/core/rag/retriever.py`) and HybridSearcher
(`src/core/rag/hybrid_search.py`).  Scores are modelled over ℚ: the float
constants (`0.01`, `0.3`, …) are the corresponding rationals. -/

/-- A raw row as returned by `ChromaStore.query`: `text` and `distance` may
be `None`; metadata is an opaque string map. -/
structure QueryRow where
  id : String
  text : Option String
  metadata : List (String × String)
  distance : Option ℚ
deriving DecidableEq

/-- Embedding of `RetrievedChunk`. -/
structure RetrievedChunk where
  id : String
  text : String
  metadata : List (String × String)
  distance : ℚ
  score : ℚ
deriving DecidableEq

/-- Embedding of `RetrievalResult`. -/
structure RetrievalResult where
  query : String
  chunks : List RetrievedChunk
  total_count : ℕ
deriving DecidableEq

/-- Embedding of `Retriever._distance_to_score` (lines 122-133):
`1/(1+distance)`, and `0.0` when the distance is `None`. -/
def _distance_to_score : Option ℚ → ℚ
  | none => 0
  | some d => 1 / (1 + d)

/-- Embedding of `Retriever.retrieve` (lines 77-120) given the raw rows the
vector store returns for the query (the store itself is abstract).
`r["text"] or ""` and `r["distance"] or 0.0` are Python truthiness
fallbacks. -/
def retrieve (query : String) (raw_results : List QueryRow) : RetrievalResult :=
  let chunks := raw_results.map (fun r =>
    { id := r.id
      text := (r.text.getD "")
      metadata := r.metadata
      distance := ((r.distance.getD 0 : ℚ))
      score := _distance_to_score r.distance : RetrievedChunk })
  { query := query, chunks := chunks, total_count := chunks.length }

/-- A row of `HybridSearcher.search`'s dense candidates. -/
structure DenseRow where
  id : String
  text : String
  metadata : List (String × String)
  distance : Option ℚ
deriving DecidableEq

/-- Embedding of `HybridSearchResult`. -/
structure HybridSearchResult where
  id : String
  text : String
  metadata : List (String × String)
  score : ℚ
  dense_score : ℚ
  sparse_score : ℚ
deriving DecidableEq

/-- Embedding of the weight validation in `HybridSearcher.__init__` (lines
42-51): `ValueError` when a weight is outside [0,1] or when the weights do
not sum to 1.0 within the 0.01 tolerance. -/
def hybridInit (dense_weight sparse_weight : ℚ) : Except String Unit :=
  if ¬ (0 ≤ dense_weight ∧ dense_weight ≤ 1 ∧ 0 ≤ sparse_weight ∧ sparse_weight ≤ 1) then
    Except.error "Weights must be between 0 and 1"
  else if 1/100 < |dense_weight + sparse_weight - 1| then
    Except.error "Weights should sum to 1.0"
  else Except.ok ()

/-- The dense score of `search` (line 90):
`1 / (1 + r["distance"]) if r["distance"] else 0.0` — note the Python
truthiness test, under which a present distance of `0.0` also yields `0.0`. -/
def hybridDenseScore : Option ℚ → ℚ
  | none => 0
  | some d => if d ≠ 0 then 1 / (1 + d) else 0

/-- First-match association lookup (`dict.get(key)` on a dict built by a
comprehension is last-match over insertions, i.e. first match over the
reversed row list). -/
def assocFind {β : Type} : List (String × β) → String → Option β
  | [], _ => none
  | (k, v) :: rest, key => if key = k then some v else assocFind rest key

/-- `dict.get` for a dict comprehension over `rows` (later bindings win). -/
def pyDictGet {β : Type} (rows : List (String × β)) (key : String) : Option β :=
  assocFind rows.reverse key

/-- The final combination `dense_weight * d_score + sparse_weight * s_score`
(line 111). -/
def hybridCombine (dense_weight sparse_weight d s : ℚ) : ℚ :=
  dense_weight * d + sparse_weight * s

/-- Stable insertion into a score-descending list (skipping strictly larger
scores), matching Python's stable `sort(key=score, reverse=True)`. -/
def insertByScore (x : HybridSearchResult) : List HybridSearchResult → List HybridSearchResult
  | [] => [x]
  | y :: ys => if x.score < y.score then y :: insertByScore x ys else x :: y :: ys

/-- Stable sort by descending `score` (a stable sort is unique, so this
matches Python's Timsort). -/
def sortByScoreDesc : List HybridSearchResult → List HybridSearchResult
  | [] => []
  | x :: xs => insertByScore x (sortByScoreDesc xs)

/-- Embedding of `HybridSearcher.search` (lines 84-132) given the abstract
inputs: the dense candidate rows the vector store returned for the query,
the indexed `documents`/`doc_ids`, and the raw BM25 scores of the tokenized
query over the corpus (one per document, as `rank_bm25` produces).  Returns
`none` when Python would raise (`max()` of an empty score list). -/
def search (dense_weight sparse_weight : ℚ) (dense_results : List DenseRow)
    (documents doc_ids : List String) (bm25_scores_raw : List ℚ) (top_k : ℕ) :
    Option (List HybridSearchResult) :=
  match bm25_scores_raw with
  | [] => none
  | r0 :: rs =>
    let dense_scores := dense_results.map (fun r => (r.id, hybridDenseScore r.distance))
    let dense_texts := dense_results.map (fun r => (r.id, r.text))
    let dense_metadata := dense_results.map (fun r => (r.id, r.metadata))
    let raw_max := rs.foldl max r0
    let max_bm25 := if 0 < raw_max then raw_max else 1
    let sparse_scores := (doc_ids.zip (r0 :: rs)).map (fun p => (p.1, p.2 / max_bm25))
    let all_ids := (dense_results.map (fun r => r.id) ++ doc_ids).dedup
    let combined := all_ids.map (fun doc_id =>
      let d_score := (pyDictGet dense_scores doc_id).getD 0
      let s_score := (pyDictGet sparse_scores doc_id).getD 0
      let text0 := (pyDictGet dense_texts doc_id).getD ""
      let text := if text0 = "" ∧ doc_id ∈ doc_ids then
          ((assocFind (doc_ids.zip documents) doc_id).getD "")
        else text0
      { id := doc_id
        text := text
        metadata := (pyDictGet dense_metadata doc_id).getD []
        score := hybridCombine dense_weight sparse_weight d_score s_score
        dense_score := d_score
        sparse_score := s_score : HybridSearchResult })
    some ((sortByScoreDesc combined).take top_k)

theorem mem_insertByScore (x r : HybridSearchResult) :
    ∀ l, r ∈ insertByScore x l → r = x ∨ r ∈ l := by
  intro l
  induction l with
  | nil =>
    intro h
    simp only [insertByScore, List.mem_singleton] at h
    exact Or.inl h
  | cons y ys ih =>
    intro h
    simp only [insertByScore] at h
    by_cases hc : x.score < y.score
    · rw [if_pos hc] at h
      rcases List.mem_cons.mp h with rfl | h'
      · exact Or.inr (List.mem_cons_self _ _)
      · rcases ih h' with h1 | h1
        · exact Or.inl h1
        · exact Or.inr (List.mem_cons_of_mem _ h1)
    · rw [if_neg hc] at h
      rcases List.mem_cons.mp h with rfl | h'
      · exact Or.inl rfl
      · exact Or.inr h'

theorem mem_sortByScoreDesc (r : HybridSearchResult) :
    ∀ l, r ∈ sortByScoreDesc l → r ∈ l := by
  intro l
  induction l with
  | nil => intro h; simp [sortByScoreDesc] at h
  | cons x xs ih =>
    intro h
    rcases mem_insertByScore x r _ h with rfl | h'
    · exact List.mem_cons_self _ _
    · exact List.mem_cons_of_mem _ (ih h')

theorem hybridInit_ok_bounds (dense_weight sparse_weight : ℚ)
    (h : hybridInit dense_weight sparse_weight = Except.ok ()) :
    0 ≤ dense_weight ∧ dense_weight ≤ 1 ∧ 0 ≤ sparse_weight ∧ sparse_weight ≤ 1 := by
  by_cases h1 : 0 ≤ dense_weight ∧ dense_weight ≤ 1 ∧ 0 ≤ sparse_weight ∧ sparse_weight ≤ 1
  · exact h1
  · rw [hybridInit, if_pos h1] at h
    cases h

/-- C6: every result of `HybridSearcher.search` carries
`score = dense_weight * dense_score + sparse_weight * sparse_score`; for
weights accepted by the constructor the final score is monotone in each
component score with the other fixed; and constructing with a weight
outside [0,1] or with weights whose sum differs from 1.0 by more than 0.01
raises a `ValueError`. -/
theorem C6_hybrid_weight_law :
    (∀ (dense_weight sparse_weight : ℚ) (dense_results : List DenseRow)
        (documents doc_ids : List String) (bm25_scores_raw : List ℚ) (top_k : ℕ)
        (results : List HybridSearchResult),
        search dense_weight sparse_weight dense_results documents doc_ids
            bm25_scores_raw top_k = some results →
        ∀ r ∈ results,
          r.score = dense_weight * r.dense_score + sparse_weight * r.sparse_score) ∧
    (∀ dense_weight sparse_weight : ℚ,
        hybridInit dense_weight sparse_weight = Except.ok () →
        (∀ d d' s : ℚ, d ≤ d' →
          hybridCombine dense_weight sparse_weight d s ≤
            hybridCombine dense_weight sparse_weight d' s) ∧
        (∀ d s s' : ℚ, s ≤ s' →
          hybridCombine dense_weight sparse_weight d s ≤
            hybridCombine dense_weight sparse_weight d s')) ∧
    (∀ dense_weight sparse_weight : ℚ,
        (¬ (0 ≤ dense_weight ∧ dense_weight ≤ 1 ∧ 0 ≤ sparse_weight ∧ sparse_weight ≤ 1)) ∨
          1/100 < |dense_weight + sparse_weight - 1| →
        ∃ msg, hybridInit dense_weight sparse_weight = Except.error msg) := by
  refine ⟨?_, ?_, ?_⟩
  · intro wd ws dense_results documents doc_ids raw top_k results hres r hr
    cases raw with
    | nil => simp [search] at hres
    | cons r0 rs =>
      simp only [search, Option.some.injEq] at hres
      subst hres
      have h1 := mem_sortByScoreDesc r _ (List.mem_of_mem_take hr)
      obtain ⟨did, hdid, rfl⟩ := List.mem_map.mp h1
      rfl
  · intro wd ws hok
    obtain ⟨h1, h2, h3, h4⟩ := hybridInit_ok_bounds wd ws hok
    constructor
    · intro d d' s hdd
      unfold hybridCombine
      have := mul_le_mul_of_nonneg_left hdd h1
      linarith
    · intro d s s' hss
      unfold hybridCombine
      have := mul_le_mul_of_nonneg_left hss h3
      linarith
  · intro wd ws hbad
    rcases hbad with hbad | hbad
    · exact ⟨_, by rw [hybridInit, if_pos hbad]⟩
    · by_cases h1 : 0 ≤ wd ∧ wd ≤ 1 ∧ 0 ≤ ws ∧ ws ≤ 1
      · exact ⟨_, by rw [hybridInit, if_neg (by simpa using h1), if_pos hbad]⟩
      · exact ⟨_, by rw [hybridInit, if_pos h1]⟩

/-- Witness for C6 at concrete data: a valid weight pair, one concrete
search whose single result obeys the weight law, one monotonicity instance,
and one invalid weight pair that raises. -/
theorem C6_hybrid_weight_law_witness :
    hybridInit (7/10) (3/10) = Except.ok () ∧
    search (7/10) (3/10) [⟨"a", "t", [], some 1⟩] ["t"] ["a"] [2] 5 =
      some [⟨"a", "t", [], 13/20, 1/2, 1⟩] ∧
    (⟨"a", "t", [], 13/20, 1/2, 1⟩ : HybridSearchResult).score =
      7/10 * ((1:ℚ)/2) + 3/10 * 1 ∧
    hybridCombine (7/10) (3/10) (1/2) 1 ≤ hybridCombine (7/10) (3/10) (2/3) 1 ∧
    (∃ msg, hybridInit (3/2) (-1/2) = Except.error msg) := by
  have h := C6_hybrid_weight_law
  have hok : hybridInit (7/10) (3/10) = Except.ok () := by
    rw [hybridInit, if_neg (by norm_num), if_neg (by norm_num)]
  have hs : search (7/10) (3/10) [⟨"a", "t", [], some 1⟩] ["t"] ["a"] [2] 5 =
      some [⟨"a", "t", [], 13/20, 1/2, 1⟩] := by
    simp only [search, pyDictGet, assocFind, hybridDenseScore, hybridCombine,
      sortByScoreDesc, insertByScore, List.map_cons, List.map_nil, List.zip_cons_cons,
      List.zip_nil_right, List.foldl_cons, List.foldl_nil, List.reverse_cons,
      List.reverse_nil, List.nil_append, List.cons_append, List.dedup_cons_of_mem,
      List.dedup_cons_of_not_mem, List.mem_singleton, List.dedup_nil, List.not_mem_nil,
      Option.some.injEq]
    norm_num
  refine ⟨hok, hs, ?_, ?_, ?_⟩
  · have h1 := h.1 (7/10) (3/10) [⟨"a", "t", [], some 1⟩] ["t"] ["a"] [2] 5
      [⟨"a", "t", [], 13/20, 1/2, 1⟩] hs ⟨"a", "t", [], 13/20, 1/2, 1⟩ (by simp)
    exact h1
  · exact (h.2.1 (7/10) (3/10) hok).1 (1/2) (2/3) 1 (by norm_num)
  · exact h.2.2 (3/2) (-1/2) (Or.inl (by norm_num))

/-- C5 (code bug): `Retriever._distance_to_score` maps a present distance
`d` to `1/(1+d)` and a missing one to `0`, as the claim states — the repo's
own test asserts `_distance_to_score(0.0) == 1.0`.  But
`HybridSearcher.search` computes its dense score with the truthiness test
`1 / (1 + r["distance"]) if r["distance"] else 0.0`, so a present distance
of `0.0` (an exact match) yields dense score `0.0` instead of the claimed
`1/(1+0) = 1.0`. -/
theorem C5_zero_distance_dense_score_bug :
    _distance_to_score (some 0) = 1 ∧
    _distance_to_score none = 0 ∧
    ((retrieve "q" [⟨"id1", some "t", [], some 0⟩]).chunks.map (fun c => c.score)) = [1] ∧
    hybridDenseScore (some 0) = 0 ∧
    (search (7/10) (3/10) [⟨"id1", "t", [], some 0⟩] ["t"] ["id1"] [1] 10).map
      (fun rs => rs.map (fun r => r.dense_score)) = some [0] ∧
    (0 : ℚ) ≠ 1 / (1 + 0) := by
  refine ⟨by norm_num [_distance_to_score], rfl,
    by simp [retrieve, _distance_to_score], by simp [hybridDenseScore], ?_, by norm_num⟩
  simp only [search, pyDictGet, assocFind, hybridDenseScore, hybridCombine,
    sortByScoreDesc, insertByScore, List.map_cons, List.map_nil, List.zip_cons_cons,
    List.zip_nil_right, List.foldl_cons, List.foldl_nil, List.reverse_cons,
    List.reverse_nil, List.nil_append, List.cons_append, List.dedup_cons_of_mem,
    List.dedup_cons_of_not_mem, List.mem_singleton, List.dedup_nil, List.not_mem_nil,
    Option.map_some]
  norm_num

/-! ### SelfCorrectingRAGChain
(`src/core/rag/agentic/self_correcting_chain.py`) -/

/-- Python whitespace for `str.strip()` (the six ASCII whitespace
characters; exotic Unicode spaces do not occur in the claims). -/
def isPySpace (c : Char) : Bool :=
  c = ' ' || c = '\t' || c = '\n' || c = '\r' || c = '\x0b' || c = '\x0c'

/-- Embedding of Python `s.strip()`. -/
def pyStrip (s : Str) : Str :=
  ((s.dropWhile isPySpace).reverse.dropWhile isPySpace).reverse

/-- Embedding of `s.strip()` on `String`. -/
def pyStripS (s : String) : String := ⟨pyStrip s.toList⟩

/-- Embedding of `CorrectionResult`. -/
structure CorrectionResult where
  answer : String
  attempts : ℕ
  final_query : String
  retrieval_quality : ℚ
  all_queries : List String
  retrieval_result : Option RetrievalResult
deriving DecidableEq

/-- Observable effects of one `SelfCorrectingRAGChain.query` call: the
retrievals and the LLM calls with their call site and temperature. -/
inductive ChainEvent where
  | retrieveEv (query : String) (top_k : ℕ)
  | broadenEv (prompt : String) (temperature : ℚ)
  | answerEv (prompt : String) (temperature : ℚ)
deriving DecidableEq

def isRetrieveEv : ChainEvent → Bool
  | ChainEvent.retrieveEv _ _ => true
  | _ => false

def isBroadenEv : ChainEvent → Bool
  | ChainEvent.broadenEv _ _ => true
  | _ => false

/-- The `BROADEN_PROMPT` template instantiated at a query (lines 23-30). -/
def broadenPrompt (query : String) : String :=
  "The following search query did not find good results.\nPlease rewrite it to be broader and more likely to find relevant documents.\nKeep the core meaning but use more general terms or synonyms.\nRespond with ONLY the rewritten query, nothing else.\n\nOriginal query: " ++ query ++ "\n\nRewritten query:"

/-- The `ANSWER_PROMPT` template instantiated at a context and question
(lines 32-40). -/
def answerPrompt (context question : String) : String :=
  "Based on the following context, answer the question.\nIf the context doesn't contain enough information, say so honestly.\n\nContext:\n" ++ context ++ "\n\nQuestion: " ++ question ++ "\n\nAnswer:"

/-- The fallback answer of `_generate_answer` (line 123). -/
def fallbackMsg : String :=
  "I couldn't find relevant information to answer your question."

/-- Embedding of `SelfCorrectingRAGChain._evaluate_quality` (lines 97-106):
the mean of the scores of the top-3 chunks, `0.0` when there are none. -/
def _evaluate_quality : Option RetrievalResult → ℚ
  | none => 0
  | some r =>
    if r.chunks = [] then 0
    else
      let top_chunks := r.chunks.take 3
      if top_chunks = [] then 0
      else ((top_chunks.map (fun c => c.score)).sum) / top_chunks.length

/-- Embedding of `SelfCorrectingRAGChain._generate_answer` (lines 116-141),
returning the answer together with the LLM events it emits.  `llm p t` is
the content the abstract LLM returns for prompt `p` at temperature `t`. -/
def genAnswer (llm : String → ℚ → String) (question : String)
    (result : Option RetrievalResult) (temperature : ℚ) : String × List ChainEvent :=
  match result with
  | none => (fallbackMsg, [])
  | some r =>
    if r.chunks = [] then (fallbackMsg, [])
    else
      let context_parts := (r.chunks.take 5).enum.map (fun p =>
        "[" ++ Nat.repr (p.1 + 1) ++ "] Source: " ++
          ((pyDictGet p.2.metadata "source").getD "unknown") ++ "\n" ++ p.2.text)
      let context := String.intercalate "\n\n" context_parts
      let prompt := answerPrompt context question
      (llm prompt temperature, [ChainEvent.answerEv prompt temperature])

/-- Embedding of `SelfCorrectingRAGChain._broaden_query` (lines 108-114):
ask the LLM at temperature 0.3 and strip the content. -/
def broadenQuery (llm : String → ℚ → String) (query : String) : String × List ChainEvent :=
  (pyStripS (llm (broadenPrompt query) (3/10)),
    [ChainEvent.broadenEv (broadenPrompt query) (3/10)])

/-- The `while attempts <= MAX_RETRIES` loop of `SelfCorrectingRAGChain.query`
(lines 54-95), as recursion on the number `k` of remaining iterations
(`k = MAX_RETRIES + 1 - attempts`).  Broadening happens only when another
iteration will follow (`attempts <= MAX_RETRIES` after the increment,
i.e. `k > 0` after this iteration). -/
def scLoop (retrieveF : String → ℕ → RetrievalResult) (llm : String → ℚ → String)
    (threshold : ℚ) (question : String) (top_k : ℕ) (temperature : ℚ) :
    ℕ → String → ℕ → List String → Option RetrievalResult → ℚ → List ChainEvent →
      CorrectionResult × List ChainEvent
  | 0, cq, attempts, allQ, result, quality, tr =>
    let (ans, ev) := genAnswer llm question result temperature
    ({ answer := ans, attempts := attempts, final_query := cq,
       retrieval_quality := quality, all_queries := allQ,
       retrieval_result := result }, tr ++ ev)
  | k + 1, cq, attempts, allQ, _, _, tr =>
    let r := retrieveF cq top_k
    let quality := _evaluate_quality (some r)
    let tr1 := tr ++ [ChainEvent.retrieveEv cq top_k]
    if threshold ≤ quality then
      let (ans, ev) := genAnswer llm question (some r) temperature
      ({ answer := ans, attempts := attempts + 1, final_query := cq,
         retrieval_quality := quality, all_queries := allQ,
         retrieval_result := some r }, tr1 ++ ev)
    else
      if k = 0 then
        let (ans, ev) := genAnswer llm question (some r) temperature
        ({ answer := ans, attempts := attempts + 1, final_query := cq,
           retrieval_quality := quality, all_queries := allQ,
           retrieval_result := some r }, tr1 ++ ev)
      else
        let (cq', ev) := broadenQuery llm cq
        scLoop retrieveF llm threshold question top_k temperature
          k cq' (attempts + 1) (allQ ++ [cq']) (some r) quality (tr1 ++ ev)

/-- Embedding of `SelfCorrectingRAGChain.query` (lines 54-95) for a chain
configured with `quality_threshold` and `max_retries`, over an abstract
retriever and LLM. -/
def scQuery (retrieveF : String → ℕ → RetrievalResult) (llm : String → ℚ → String)
    (quality_threshold : ℚ) (max_retries : ℕ) (question : String) (top_k : ℕ)
    (temperature : ℚ) : CorrectionResult × List ChainEvent :=
  scLoop retrieveF llm quality_threshold question top_k temperature
    (max_retries + 1) question 0 [question] none 0 []

theorem genAnswer_events (llm : String → ℚ → String) (question : String)
    (result : Option RetrievalResult) (temperature : ℚ) :
    ((genAnswer llm question result temperature).2.filter isRetrieveEv = [] ∧
     (genAnswer llm question result temperature).2.filter isBroadenEv = []) ∧
    (∀ rr, result = some rr → rr.chunks = [] →
      (genAnswer llm question result temperature).1 = fallbackMsg) := by
  match result with
  | none => exact ⟨⟨rfl, rfl⟩, by intro rr h; cases h⟩
  | some r =>
    by_cases hc : r.chunks = []
    · refine ⟨⟨?_, ?_⟩, ?_⟩
      · simp [genAnswer, hc]
      · simp [genAnswer, hc]
      · intro rr h hrr
        cases h
        simp [genAnswer, hrr]
    · refine ⟨⟨?_, ?_⟩, ?_⟩
      · simp [genAnswer, hc, isRetrieveEv]
      · simp [genAnswer, hc, isBroadenEv]
      · intro rr h hrr
        cases h
        exact absurd hrr hc

theorem scLoop_spec (retrieveF : String → ℕ → RetrievalResult) (llm : String → ℚ → String)
    (threshold : ℚ) (question : String) (top_k : ℕ) (temperature : ℚ) :
    ∀ (k : ℕ) (cq : String) (attempts : ℕ) (allQ : List String)
      (res0 : Option RetrievalResult) (q0 : ℚ) (tr : List ChainEvent),
      q0 = _evaluate_quality res0 →
      ∃ delta,
        (scLoop retrieveF llm threshold question top_k temperature
            k cq attempts allQ res0 q0 tr).2 = tr ++ delta ∧
        (delta.filter isRetrieveEv).length ≤ k ∧
        (delta.filter isBroadenEv).length ≤ k - 1 ∧
        (scLoop retrieveF llm threshold question top_k temperature
            k cq attempts allQ res0 q0 tr).1.attempts =
          attempts + (delta.filter isRetrieveEv).length ∧
        (∀ ev ∈ delta, ∀ p t, ev = ChainEvent.broadenEv p t → t = 3/10) ∧
        (scLoop retrieveF llm threshold question top_k temperature
            k cq attempts allQ res0 q0 tr).1.retrieval_quality =
          _evaluate_quality (scLoop retrieveF llm threshold question top_k temperature
            k cq attempts allQ res0 q0 tr).1.retrieval_result ∧
        (∀ rr, (scLoop retrieveF llm threshold question top_k temperature
            k cq attempts allQ res0 q0 tr).1.retrieval_result = some rr →
          rr.chunks = [] →
          (scLoop retrieveF llm threshold question top_k temperature
            k cq attempts allQ res0 q0 tr).1.answer = fallbackMsg) ∧
        (1 ≤ k → threshold ≤ _evaluate_quality (some (retrieveF cq top_k)) →
          (scLoop retrieveF llm threshold question top_k temperature
              k cq attempts allQ res0 q0 tr).1.attempts = attempts + 1 ∧
          (scLoop retrieveF llm threshold question top_k temperature
              k cq attempts allQ res0 q0 tr).1.final_query = cq ∧
          (delta.filter isBroadenEv).length = 0 ∧
          (scLoop retrieveF llm threshold question top_k temperature
              k cq attempts allQ res0 q0 tr).1.retrieval_result =
            some (retrieveF cq top_k)) := by
  intro k
  induction k with
  | zero =>
    intro cq attempts allQ res0 q0 tr hq
    obtain ⟨⟨he1, he2⟩, hfall⟩ := genAnswer_events llm question res0 temperature
    refine ⟨(genAnswer llm question res0 temperature).2, ?_, ?_, ?_, ?_, ?_, ?_, ?_, ?_⟩
    · simp [scLoop]
    · simp [he1]
    · simp [he2]
    · simp [scLoop, he1]
    · intro ev hev p t hevt
      subst hevt
      have : isBroadenEv (ChainEvent.broadenEv p t) = true := rfl
      rw [List.filter_eq_nil_iff] at he2
      exact absurd this (by simpa using he2 _ hev)
    · simpa [scLoop] using hq
    · intro rr h1 h2
      simp only [scLoop] at h1 ⊢
      exact hfall rr h1 h2
    · intro hk; omega
  | succ k ih =>
    intro cq attempts allQ res0 q0 tr hq
    by_cases hth : threshold ≤ _evaluate_quality (some (retrieveF cq top_k))
    · obtain ⟨⟨he1, he2⟩, hfall⟩ :=
        genAnswer_events llm question (some (retrieveF cq top_k)) temperature
      refine ⟨ChainEvent.retrieveEv cq top_k ::
          (genAnswer llm question (some (retrieveF cq top_k)) temperature).2,
        ?_, ?_, ?_, ?_, ?_, ?_, ?_, ?_⟩
      · simp [scLoop, if_pos hth]
      · simp [List.filter_cons, isRetrieveEv, he1]
      · simp [List.filter_cons, isBroadenEv, he2]
      · simp [scLoop, if_pos hth, List.filter_cons, isRetrieveEv, he1]
      · intro ev hev p t hevt
        subst hevt
        rcases List.mem_cons.mp hev with h | h
        · cases h
        · have hb : isBroadenEv (ChainEvent.broadenEv p t) = true := rfl
          rw [List.filter_eq_nil_iff] at he2
          exact absurd hb (by simpa using he2 _ h)
      · simp [scLoop, if_pos hth]
      · intro rr h1 h2
        simp only [scLoop, if_pos hth] at h1 ⊢
        exact hfall rr h1 h2
      · intro _ _
        refine ⟨by simp [scLoop, if_pos hth, List.filter_cons, isRetrieveEv, he1],
          by simp [scLoop, if_pos hth], ?_, by simp [scLoop, if_pos hth]⟩
        simp [List.filter_cons, isBroadenEv, he2]
    · by_cases hk : k = 0
      · subst hk
        obtain ⟨⟨he1, he2⟩, hfall⟩ :=
          genAnswer_events llm question (some (retrieveF cq top_k)) temperature
        refine ⟨ChainEvent.retrieveEv cq top_k ::
            (genAnswer llm question (some (retrieveF cq top_k)) temperature).2,
          ?_, ?_, ?_, ?_, ?_, ?_, ?_, ?_⟩
        · simp [scLoop, if_neg hth]
        · simp [List.filter_cons, isRetrieveEv, he1]
        · simp [List.filter_cons, isBroadenEv, he2]
        · simp [scLoop, if_neg hth, List.filter_cons, isRetrieveEv, he1]
        · intro ev hev p t hevt
          subst hevt
          rcases List.mem_cons.mp hev with h | h
          · cases h
          · have hb : isBroadenEv (ChainEvent.broadenEv p t) = true := rfl
            rw [List.filter_eq_nil_iff] at he2
            exact absurd hb (by simpa using he2 _ h)
        · simp [scLoop, if_neg hth]
        · intro rr h1 h2
          simp only [scLoop, if_neg hth] at h1 ⊢
          exact hfall rr h1 h2
        · intro _ habs
          exact absurd habs hth
      · obtain ⟨delta, hd1, hd2, hd3, hd4, hd5, hd6, hd7, _⟩ :=
          ih (pyStripS (llm (broadenPrompt cq) (3/10))) (attempts + 1)
            (allQ ++ [pyStripS (llm (broadenPrompt cq) (3/10))])
            (some (retrieveF cq top_k)) (_evaluate_quality (some (retrieveF cq top_k)))
            (tr ++ [ChainEvent.retrieveEv cq top_k] ++
              [ChainEvent.broadenEv (broadenPrompt cq) (3/10)]) rfl
        have hstep : scLoop retrieveF llm threshold question top_k temperature
            (k + 1) cq attempts allQ res0 q0 tr =
          scLoop retrieveF llm threshold question top_k temperature
            k (pyStripS (llm (broadenPrompt cq) (3/10))) (attempts + 1)
            (allQ ++ [pyStripS (llm (broadenPrompt cq) (3/10))])
            (some (retrieveF cq top_k)) (_evaluate_quality (some (retrieveF cq top_k)))
            (tr ++ [ChainEvent.retrieveEv cq top_k] ++
              [ChainEvent.broadenEv (broadenPrompt cq) (3/10)]) := by
          simp [scLoop, if_neg hth, hk, broadenQuery]
        refine ⟨ChainEvent.retrieveEv cq top_k ::
            ChainEvent.broadenEv (broadenPrompt cq) (3/10) :: delta,
          ?_, ?_, ?_, ?_, ?_, ?_, ?_, ?_⟩
        · rw [hstep, hd1]; simp
        · simp [List.filter_cons, isRetrieveEv, isBroadenEv]
          omega
        · simp [List.filter_cons, isRetrieveEv, isBroadenEv]
          omega
        · rw [hstep, hd4]
          simp [List.filter_cons, isRetrieveEv, isBroadenEv]
          omega
        · intro ev hev p t hevt
          subst hevt
          rcases List.mem_cons.mp hev with h | h
          · cases h
          · rcases List.mem_cons.mp h with h' | h'
            · cases h'; rfl
            · exact hd5 _ h' p t rfl
        · rw [hstep]; exact hd6
        · rw [hstep]; exact hd7
        · intro _ habs
          exact absurd habs hth

/-- C7: `SelfCorrectingRAGChain.query` computes retrieval quality as the
mean of the top-3 chunk scores of the current retrieval (0 if there are no
chunks); it returns immediately after the first retrieval when that quality
reaches `quality_threshold` (no broadening); every broadening LLM call uses
temperature 0.3; at most `max_retries` broadening calls and at most
`max_retries + 1` retrievals happen; and when the loop is exhausted with an
empty last retrieval the answer is the fallback message. -/
theorem C7_self_correcting_chain (retrieveF : String → ℕ → RetrievalResult)
    (llm : String → ℚ → String) (quality_threshold : ℚ) (max_retries : ℕ)
    (question : String) (top_k : ℕ) (temperature : ℚ) :
    (∀ r : RetrievalResult, r.chunks ≠ [] →
        _evaluate_quality (some r) =
          ((r.chunks.take 3).map (fun c => c.score)).sum / (r.chunks.take 3).length) ∧
    (∀ r : RetrievalResult, r.chunks = [] → _evaluate_quality (some r) = 0) ∧
    ((scQuery retrieveF llm quality_threshold max_retries question top_k
        temperature).1.retrieval_quality =
      _evaluate_quality (scQuery retrieveF llm quality_threshold max_retries question top_k
        temperature).1.retrieval_result) ∧
    (((scQuery retrieveF llm quality_threshold max_retries question top_k
        temperature).2.filter isRetrieveEv).length ≤ max_retries + 1) ∧
    ((scQuery retrieveF llm quality_threshold max_retries question top_k
        temperature).1.attempts =
      ((scQuery retrieveF llm quality_threshold max_retries question top_k
        temperature).2.filter isRetrieveEv).length) ∧
    (((scQuery retrieveF llm quality_threshold max_retries question top_k
        temperature).2.filter isBroadenEv).length ≤ max_retries) ∧
    (∀ ev ∈ (scQuery retrieveF llm quality_threshold max_retries question top_k
        temperature).2, ∀ p t, ev = ChainEvent.broadenEv p t → t = 3/10) ∧
    (quality_threshold ≤ _evaluate_quality (some (retrieveF question top_k)) →
      (scQuery retrieveF llm quality_threshold max_retries question top_k
          temperature).1.attempts = 1 ∧
      (scQuery retrieveF llm quality_threshold max_retries question top_k
          temperature).1.final_query = question ∧
      ((scQuery retrieveF llm quality_threshold max_retries question top_k
          temperature).2.filter isBroadenEv).length = 0 ∧
      (scQuery retrieveF llm quality_threshold max_retries question top_k
          temperature).1.retrieval_result = some (retrieveF question top_k)) ∧
    (∀ rr, (scQuery retrieveF llm quality_threshold max_retries question top_k
        temperature).1.retrieval_result = some rr → rr.chunks = [] →
      (scQuery retrieveF llm quality_threshold max_retries question top_k
        temperature).1.answer = fallbackMsg) := by
  obtain ⟨delta, hd1, hd2, hd3, hd4, hd5, hd6, hd7, hd8⟩ :=
    scLoop_spec retrieveF llm quality_threshold question top_k temperature
      (max_retries + 1) question 0 [question] none 0 [] rfl
  have htr : (scQuery retrieveF llm quality_threshold max_retries question top_k
      temperature).2 = delta := by
    rw [show (scQuery retrieveF llm quality_threshold max_retries question top_k
      temperature).2 = (scLoop retrieveF llm quality_threshold question top_k temperature
      (max_retries + 1) question 0 [question] none 0 []).2 from rfl, hd1]
    simp
  refine ⟨?_, ?_, ?_, ?_, ?_, ?_, ?_, ?_, ?_⟩
  · intro r hr
    simp only [_evaluate_quality, if_neg hr]
    have hne : r.chunks.take 3 ≠ [] := by
      intro h
      rcases List.take_eq_nil_iff.mp h with h' | h'
      · cases h'
      · exact hr h'
    rw [if_neg hne]
  · intro r hr
    simp [_evaluate_quality, hr]
  · exact hd6
  · rw [htr]; exact hd2
  · rw [htr]; simpa using hd4
  · rw [htr]; simpa using hd3
  · rw [htr]; exact hd5
  · intro hth
    obtain ⟨h1, h2, h3, h4⟩ := hd8 (by omega) hth
    exact ⟨by simpa using h1, h2, by rw [htr]; exact h3, h4⟩
  · exact hd7

/-- Witness for C7 at concrete data: threshold 0 is reached by the first
(empty) retrieval, so the chain answers immediately with one attempt and no
broadening. -/
theorem C7_self_correcting_chain_witness :
    (scQuery (fun _ _ => ⟨"q", [], 0⟩) (fun _ _ => "ans") 0 2 "q" 5
        (7/10)).1.attempts = 1 ∧
    (scQuery (fun _ _ => ⟨"q", [], 0⟩) (fun _ _ => "ans") 0 2 "q" 5
        (7/10)).1.final_query = "q" ∧
    ((scQuery (fun _ _ => ⟨"q", [], 0⟩) (fun _ _ => "ans") 0 2 "q" 5
        (7/10)).2.filter isBroadenEv).length = 0 ∧
    (scQuery (fun _ _ => ⟨"q", [], 0⟩) (fun _ _ => "ans") 0 2 "q" 5
        (7/10)).1.answer = fallbackMsg := by
  have h := C7_self_correcting_chain (fun _ _ => ⟨"q", [], 0⟩) (fun _ _ => "ans")
    0 2 "q" 5 (7/10)
  have hth : (0:ℚ) ≤ _evaluate_quality (some ((fun _ _ => ⟨"q", [], 0⟩ :
      String → ℕ → RetrievalResult) "q" 5)) := by
    simp [_evaluate_quality]
  obtain ⟨h1, h2, h3, h4⟩ := h.2.2.2.2.2.2.2.1 hth
  exact ⟨h1, h2, h3, h.2.2.2.2.2.2.2.2 _ h4 rfl⟩

/-! ### SyncRegistry.save (`src/core/sync/sync_registry.py`, lines 81-87) -/

/-- Primitive filesystem operations a save routine can perform. -/
inductive FsOp where
  | mkdirParents (dir : String)
  | openTrunc (path : String)
  | writeAll (path : String) (content : String)
  | closeFile (path : String)
  | rename (src dst : String)
deriving DecidableEq

/-- Embedding of `SyncRegistry.save` as the sequence of filesystem
operations the code performs, in order: `self.registry_path.parent.mkdir(
parents=True, exist_ok=True)`; `open(self.registry_path, "w", ...)` — which
truncates the file at the registry path itself; `json.dump(self._data, f,
...)`; close on leaving the `with` block.  The code creates no temporary
file and performs no rename. -/
def saveOps (registry_path parent_dir json : String) : List FsOp :=
  [FsOp.mkdirParents parent_dir,
   FsOp.openTrunc registry_path,
   FsOp.writeAll registry_path json,
   FsOp.closeFile registry_path]

/-- Effect of one filesystem operation on the contents map
(path ↦ file contents, `none` = absent). -/
def applyOp (st : String → Option String) : FsOp → (String → Option String)
  | FsOp.mkdirParents _ => st
  | FsOp.openTrunc p => fun q => if q = p then some "" else st q
  | FsOp.writeAll p c => fun q => if q = p then some c else st q
  | FsOp.closeFile _ => st
  | FsOp.rename src dst => fun q =>
      if q = dst then st src else if q = src then none else st q

/-- All intermediate filesystem states along a trace (initial state
included). -/
def runTrace (st : String → Option String) : List FsOp → List (String → Option String)
  | [] => [st]
  | op :: rest => st :: runTrace (applyOp st op) rest

/-- C4 counterexample: `SyncRegistry.save` performs no rename at all, and
at the moment after its truncating `open` the registry path holds the empty
document — neither the old registry `"old"` nor the new serialization
`"new-json"`.  The claimed write-to-tempfile-then-rename shape, under which
the registry path never holds a partially-written document, is therefore
false of the code. -/
theorem C4_save_not_atomic_counterexample :
    (∀ s d, FsOp.rename s d ∉ saveOps "vault/.sync_registry.json" "vault" "new-json") ∧
    ((runTrace (fun _ => some "old")
        (saveOps "vault/.sync_registry.json" "vault" "new-json")).map
      (fun st => st "vault/.sync_registry.json")) =
      [some "old", some "old", some "", some "new-json", some "new-json"] ∧
    (some "" ≠ (some "old" : Option String) ∧ some "" ≠ (some "new-json" : Option String)) := by
  refine ⟨?_, ?_, by decide⟩
  · intro s d h
    simp [saveOps] at h
  · simp [saveOps, runTrace, applyOp]

/-- C4 amended: `SyncRegistry.save` writes the registry JSON directly
(non-atomically): it makes the parent directory, opens the registry path
itself with truncation, writes the serialization in place and closes — no
temporary file, no rename — so immediately after the truncating open the
registry path holds an empty (partially-written) document, and the new
contents appear only once the write completes. -/
theorem C4_save_direct_write (registry_path parent_dir json old : String) :
    (∀ s d, FsOp.rename s d ∉ saveOps registry_path parent_dir json) ∧
    (∀ p, FsOp.openTrunc p ∈ saveOps registry_path parent_dir json ↔ p = registry_path) ∧
    ((runTrace (fun _ => some old) (saveOps registry_path parent_dir json)).map
      (fun st => st registry_path)) =
      [some old, some old, some "", some json, some json] := by
  refine ⟨?_, ?_, ?_⟩
  · intro s d h
    simp [saveOps] at h
  · intro p
    simp [saveOps]
  · simp [saveOps, runTrace, applyOp]

/-! ### QueryRewriter (`src/core/rag/agentic/query_rewriter.py`) -/

/-- The backtick character (written by code point to keep source text
plain). -/
def bq : Char := Char.ofNat 96

/-- Opening and closing curly braces, by code point. -/
def lbrace : Char := Char.ofNat 123

def rbrace : Char := Char.ofNat 125

/-- JSON values as `json.loads` produces them (dicts keep their insertion
order; duplicate keys keep the last value, which the reversed-list lookup
below reproduces). -/
inductive JVal where
  | null
  | bool (b : Bool)
  | str (s : String)
  | num (q : ℚ)
  | arr (items : List JVal)
  | obj (members : List (String × JVal))

/-- Embedding of `RewriteResult`.  The dataclass fields are untyped at
runtime, so each field holds whatever JSON value the parsed dict supplied. -/
structure RewriteResult where
  is_clear : JVal
  rewritten_queries : JVal
  clarification_needed : JVal
  original_query : String

/-- Python regex `\s` (ASCII range), used by `re.sub(r"```(?:json)?\s*", …)`. -/
def isReWs (c : Char) : Bool := isPySpace c

/-- One pass of `re.sub(r"```(?:json)?\s*", "", content)`: at each position,
a run of three backticks, optionally followed by `json`, then a greedy
whitespace run, is removed; other characters are kept.  `fuel` bounds the
recursion by the input length. -/
def stripFencesGo : ℕ → Str → Str
  | 0, s => s
  | fuel + 1, s =>
    match s with
    | [] => []
    | c :: rest =>
      if begWith [bq, bq, bq] s then
        let rest1 := s.drop 3
        let rest2 := if begWith ("json".toList) rest1 then rest1.drop 4 else rest1
        let rest3 := rest2.dropWhile isReWs
        stripFencesGo fuel rest3
      else c :: stripFencesGo fuel rest

/-- Embedding of Python `s.rstrip("`")`. -/
def rstripBq (s : Str) : Str := (s.reverse.dropWhile (fun c => c = bq)).reverse

/-- The content normalization at the top of `_parse_response` (lines 80-85):
strip; when the content starts with a code fence, remove the fence markers
and strip again. -/
def processContent (content : Str) : Str :=
  let c1 := pyStrip content
  if begWith [bq, bq, bq] c1 then
    pyStrip (rstripBq (stripFencesGo c1.length c1))
  else c1

/-- Leftmost match of `re.search(r"\{[^{}]*\}", content, re.DOTALL)` (line
90): the first `{` whose next brace character is `}`, with everything in
between. -/
def findObjFragment : Str → Option Str
  | [] => none
  | c :: rest =>
    if c = lbrace then
      let body := rest.takeWhile (fun d => ¬ (d = lbrace ∨ d = rbrace))
      match rest.drop body.length with
      | d :: _ =>
        if d = rbrace then some (lbrace :: (body ++ [rbrace]))
        else findObjFragment rest
      | [] => findObjFragment rest
    else findObjFragment rest

/-- The fallback dict of `_parse_response` (lines 97-101):
`{"is_clear": True, "rewritten_queries": [content] if content else [],
"clarification_needed": None}` — note that it carries the processed LLM
content, not the caller's original query. -/
def fallbackDict (c : Str) : JVal :=
  JVal.obj [("is_clear", JVal.bool true),
            ("rewritten_queries", if c ≠ [] then JVal.arr [JVal.str ⟨c⟩] else JVal.arr []),
            ("clarification_needed", JVal.null)]

/-- Embedding of `QueryRewriter._parse_response` (lines 80-101) over an
abstract JSON parser standing for the standard library `json.loads`
(`some` = parsed value, `none` = `json.JSONDecodeError`). -/
def _parse_response (jsonLoads : String → Option JVal) (content : String) : JVal :=
  let c := processContent content.toList
  match jsonLoads ⟨c⟩ with
  | some v => v
  | none =>
    match findObjFragment c with
    | some frag =>
      match jsonLoads ⟨frag⟩ with
      | some v => v
      | none => fallbackDict c
    | none => fallbackDict c

/-- `dict.get(key, default)` on a parsed JSON object. -/
def pyDictGetJ (ms : List (String × JVal)) (key : String) (default : JVal) : JVal :=
  (pyDictGet ms key).getD default

/-- Embedding of the result assembly in `QueryRewriter.rewrite` (lines
45-64).  The LLM call is abstract: `llmContent` is the `response.content`
the LLM returned for the built prompt (the prompt only routes the query and
history to the LLM and does not otherwise influence this function).
`result.get(...)` on a non-dict JSON value raises `AttributeError`, modelled
as `Except.error`. -/
def rewrite (jsonLoads : String → Option JVal) (llmContent query : String) :
    Except String RewriteResult :=
  match _parse_response jsonLoads llmContent with
  | JVal.obj ms =>
    Except.ok { is_clear := pyDictGetJ ms "is_clear" (JVal.bool true)
                rewritten_queries := pyDictGetJ ms "rewritten_queries"
                  (JVal.arr [JVal.str query])
                clarification_needed := pyDictGetJ ms "clarification_needed" JVal.null
                original_query := query }
  | _ => Except.error "AttributeError"

/-- Executable stand-in for the standard library `json.loads` (which is not
repository code): a recursive-descent parser restricted to flat objects and
arrays with string keys and string / boolean / null / non-negative integer
scalars, and no escape sequences — it accepts the JSON shapes the
rewriter's prompt requests and rejects plain text such as `"not json"`
exactly as `json.loads` does.  `C8`'s general theorem is parametric in the
parser; this concrete one only instantiates its failure hypotheses. -/
def isJsonWs (c : Char) : Bool := c = ' ' || c = '\t' || c = '\n' || c = '\r'

def jpString (s : Str) : Option (String × Str) :=
  match s with
  | '"' :: r =>
    let body := r.takeWhile (fun c => ¬ (c = '"' ∨ c = '\\'))
    match r.drop body.length with
    | '"' :: rest => some (⟨body⟩, rest)
    | _ => none
  | _ => none

def jpScalar (s : Str) : Option (JVal × Str) :=
  if begWith ("true".toList) s then some (JVal.bool true, s.drop 4)
  else if begWith ("false".toList) s then some (JVal.bool false, s.drop 5)
  else if begWith ("null".toList) s then some (JVal.null, s.drop 4)
  else
    match jpString s with
    | some (str, rest) => some (JVal.str str, rest)
    | none =>
      let ds := s.takeWhile Char.isDigit
      if ds ≠ [] then
        some (JVal.num ((ds.foldl (fun a c => 10 * a + (c.toNat - 48)) 0 : ℕ) : ℚ),
          s.drop ds.length)
      else none

def jpArrItems : ℕ → Str → Option (List JVal × Str)
  | 0, _ => none
  | fuel + 1, s =>
    match jpScalar (s.dropWhile isJsonWs) with
    | none => none
    | some (v, rest) =>
      match rest.dropWhile isJsonWs with
      | ',' :: r2 =>
        match jpArrItems fuel r2 with
        | some (vs, r3) => some (v :: vs, r3)
        | none => none
      | ']' :: r2 => some ([v], r2)
      | _ => none

def jpArr (fuel : ℕ) (s : Str) : Option (JVal × Str) :=
  match s with
  | '[' :: r =>
    match r.dropWhile isJsonWs with
    | ']' :: r2 => some (JVal.arr [], r2)
    | _ =>
      match jpArrItems fuel r with
      | some (vs, rest) => some (JVal.arr vs, rest)
      | none => none
  | _ => none

def jpValue (fuel : ℕ) (s : Str) : Option (JVal × Str) :=
  match jpArr fuel s with
  | some r => some r
  | none => jpScalar s

def jpMembers : ℕ → Str → Option (List (String × JVal) × Str)
  | 0, _ => none
  | fuel + 1, s =>
    match jpString (s.dropWhile isJsonWs) with
    | none => none
    | some (key, r1) =>
      match r1.dropWhile isJsonWs with
      | ':' :: r2 =>
        match jpValue fuel (r2.dropWhile isJsonWs) with
        | none => none
        | some (v, r3) =>
          match r3.dropWhile isJsonWs with
          | ',' :: r4 =>
            match jpMembers fuel r4 with
            | some (ms, r5) => some ((key, v) :: ms, r5)
            | none => none
          | d :: r4 =>
            if d = rbrace then some ([(key, v)], r4) else none
          | [] => none
      | _ => none

def jsonParse (s : String) : Option JVal :=
  let t := s.toList.dropWhile isJsonWs
  let parsed : Option (JVal × Str) :=
    match t with
    | c :: r =>
      if c = lbrace then
        match r.dropWhile isJsonWs with
        | d :: r2 =>
          if d = rbrace then some (JVal.obj [], r2)
          else
            match jpMembers t.length r with
            | some (ms, rest) => some (JVal.obj ms, rest)
            | none => none
        | [] => none
      else jpValue t.length t
    | [] => none
  match parsed with
  | some (v, rest) => if rest.dropWhile isJsonWs = [] then some v else none
  | none => none

/-- C8 counterexample: for the unparseable LLM response `"not json"` and
original query `"q"`, `rewrite` returns `is_clear = true` but
`rewritten_queries = ["not json"]` — the processed LLM content, not the
original query as the claim states. -/
theorem C8_parse_failure_counterexample :
    rewrite jsonParse "not json" "q" =
      Except.ok { is_clear := JVal.bool true
                  rewritten_queries := JVal.arr [JVal.str "not json"]
                  clarification_needed := JVal.null
                  original_query := "q" } ∧
    JVal.arr [JVal.str "not json"] ≠ JVal.arr [JVal.str "q"] := by
  constructor
  · rfl
  · simp

/-- C8 amended: when the LLM content cannot be parsed as JSON — not
directly after fence stripping, nor as a single-object fragment —
`rewrite` returns `is_clear = true` and `rewritten_queries` equal to the
single-element list holding the processed (stripped, fence-free) response
content, or the empty list when that content is empty; the original query
is only the default for parseable JSON lacking the key. -/
theorem C8_parse_failure_returns_content (jsonLoads : String → Option JVal)
    (content query : String)
    (h1 : jsonLoads ⟨processContent content.toList⟩ = none)
    (h2 : ∀ frag, findObjFragment (processContent content.toList) = some frag →
        jsonLoads ⟨frag⟩ = none) :
    rewrite jsonLoads content query = Except.ok
      { is_clear := JVal.bool true
        rewritten_queries := if processContent content.toList ≠ [] then
            JVal.arr [JVal.str ⟨processContent content.toList⟩] else JVal.arr []
        clarification_needed := JVal.null
        original_query := query } := by
  have hpr : _parse_response jsonLoads content = fallbackDict (processContent content.toList) := by
    simp only [_parse_response]
    rw [h1]
    cases hf : findObjFragment (processContent content.toList) with
    | none => rfl
    | some frag =>
      show (match jsonLoads (⟨frag⟩ : String) with
        | some v => v
        | none => fallbackDict (processContent content.toList)) =
          fallbackDict (processContent content.toList)
      rw [h2 frag hf]
  simp only [rewrite, hpr]
  rfl

/-- Witness for C8's amended theorem: the concrete parser (matching
`json.loads`'s rejections) fails on `"not json"`, which contains no brace
fragment, so the hypotheses hold and the rewrite returns the content. -/
theorem C8_parse_failure_returns_content_witness :
    jsonParse ⟨processContent ("not json".toList)⟩ = none ∧
    rewrite jsonParse "not json" "q2" = Except.ok
      { is_clear := JVal.bool true
        rewritten_queries := if processContent ("not json".toList) ≠ [] then
            JVal.arr [JVal.str ⟨processContent ("not json".toList)⟩] else JVal.arr []
        clarification_needed := JVal.null
        original_query := "q2" } := by
  refine ⟨rfl, C8_parse_failure_returns_content jsonParse "not json" "q2" rfl ?_⟩
  intro frag hfrag
  rw [show findObjFragment (processContent ("not json".toList)) = none from rfl] at hfrag
  cases hfrag

/-! ### Markdown preprocessor
(`src/core/preprocessing/markdown_preprocessor.py`) -/

/-- The decimal digit characters, as Python's `str(i)` / an f-string
produces them. -/
def digitChar : ℕ → Char
  | 0 => '0' | 1 => '1' | 2 => '2' | 3 => '3' | 4 => '4'
  | 5 => '5' | 6 => '6' | 7 => '7' | 8 => '8' | 9 => '9'
  | _ => '?'

/-- Decimal formatting of a natural (most significant digit first), with a
fuel parameter to keep the recursion structural. -/
def natStrGo : ℕ → ℕ → Str
  | 0, _ => []
  | f + 1, n =>
    if n < 10 then [digitChar n]
    else natStrGo f (n / 10) ++ [digitChar (n % 10)]

/-- Decimal digits of a natural, as Python's `str(i)` / an f-string
produces them. -/
def natStr (n : ℕ) : Str := natStrGo (n + 1) n

theorem natStrGo_fuel : ∀ (f : ℕ), ∀ (f' n : ℕ), n < f → n < f' →
    natStrGo f n = natStrGo f' n := by
  intro f
  induction f with
  | zero => intro f' n h; omega
  | succ g ih =>
    intro f' n h h'
    cases f' with
    | zero => omega
    | succ g' =>
      simp only [natStrGo]
      by_cases h10 : n < 10
      · rw [if_pos h10, if_pos h10]
      · rw [if_neg h10, if_neg h10]
        have hd : n / 10 < n := Nat.div_lt_self (by omega) (by omega)
        rw [ih g' (n / 10) (by omega) (by omega)]

theorem natStr_eq (n : ℕ) : natStr n =
    if n < 10 then [digitChar n]
    else natStr (n / 10) ++ [digitChar (n % 10)] := by
  show natStrGo (n + 1) n = _
  by_cases h10 : n < 10
  · simp only [natStrGo, if_pos h10]
  · simp only [natStrGo, if_neg h10]
    have hd : n / 10 < n := Nat.div_lt_self (by omega) (by omega)
    rw [natStrGo_fuel n (n / 10 + 1) (n / 10) (by omega) (by omega)]
    rfl

theorem natStr_ne_nil (n : ℕ) : natStr n ≠ [] := by
  rw [natStr_eq]
  by_cases h10 : n < 10
  · rw [if_pos h10]; simp
  · rw [if_neg h10]; simp

/-- The decimal-digit decoder inverse to `natStr`. -/
def decDigits (l : Str) : ℕ := l.foldl (fun a c => 10 * a + (c.toNat - 48)) 0

theorem decDigits_append_single (xs : Str) (c : Char) :
    decDigits (xs ++ [c]) = 10 * decDigits xs + (c.toNat - 48) := by
  simp [decDigits, List.foldl_append]

theorem digitChar_toNat (d : ℕ) (h : d < 10) : (digitChar d).toNat - 48 = d := by
  interval_cases d <;> decide

theorem decDigits_natStr : ∀ n : ℕ, decDigits (natStr n) = n := by
  intro n
  induction n using Nat.strong_induction_on with
  | _ n ih =>
    rw [natStr_eq]
    by_cases h10 : n < 10
    · rw [if_pos h10]
      show 10 * 0 + ((digitChar n).toNat - 48) = n
      rw [digitChar_toNat n h10]
      omega
    · rw [if_neg h10]
      rw [decDigits_append_single,
        ih (n / 10) (Nat.div_lt_self (by omega) (by omega)),
        digitChar_toNat (n % 10) (Nat.mod_lt n (by omega))]
      omega

theorem natStr_inj (a b : ℕ) (h : natStr a = natStr b) : a = b := by
  have := decDigits_natStr a
  rw [h, decDigits_natStr b] at this
  omega

/-- Every character of `natStr n` is one of the ten digit characters. -/
theorem natStr_digits : ∀ n : ℕ, ∀ c ∈ natStr n, ∃ d, d < 10 ∧ c = digitChar d := by
  intro n
  induction n using Nat.strong_induction_on with
  | _ n ih =>
    intro c hc
    rw [natStr_eq] at hc
    by_cases h10 : n < 10
    · rw [if_pos h10] at hc
      simp only [List.mem_singleton] at hc
      exact ⟨n, h10, hc⟩
    · rw [if_neg h10] at hc
      rcases List.mem_append.mp hc with h | h
      · exact ih (n / 10) (Nat.div_lt_self (by omega) (by omega)) c h
      · simp only [List.mem_singleton] at h
        exact ⟨n % 10, Nat.mod_lt n (by omega), h⟩

theorem digitChar_ne_underscore (d : ℕ) (h : d < 10) : digitChar d ≠ '_' := by
  interval_cases d <;> decide

theorem natStr_head_ne_zero : ∀ n : ℕ, n ≠ 0 → ∀ t : Str, natStr n ≠ '0' :: t := by
  intro n
  induction n using Nat.strong_induction_on with
  | _ n ih =>
    intro hn t heq
    rw [natStr_eq] at heq
    by_cases h10 : n < 10
    · rw [if_pos h10] at heq
      obtain ⟨h1, h2⟩ := List.cons.inj heq
      have : n = 0 := by interval_cases n <;> first | rfl | cases h1
      exact hn this
    · rw [if_neg h10] at heq
      cases hns : natStr (n / 10) with
      | nil => exact natStr_ne_nil _ hns
      | cons h0 rest =>
        rw [hns, List.cons_append] at heq
        obtain ⟨h1, _⟩ := List.cons.inj heq
        exact ih (n / 10) (Nat.div_lt_self (by omega) (by omega)) (by omega) rest
          (by rw [hns, h1])

/-- The placeholder `__CODE_BLOCK_<i>__` of `protect_code_blocks`. -/
def placeholder (i : ℕ) : Str :=
  "__CODE_BLOCK_".toList ++ natStr i ++ "__".toList

/-- Length of the backtick run at the head of `s`. -/
def tickRun : Str → ℕ
  | [] => 0
  | c :: rest => if c = bq then tickRun rest + 1 else 0

/-- Index of the first newline in `s`. -/
def idxNewline : Str → Option ℕ
  | [] => none
  | c :: rest => if c = '\n' then some 0 else (idxNewline rest).map (· + 1)

/-- First index of `s` at which `k` consecutive backticks start. -/
def idxRun (k : ℕ) : Str → Option ℕ
  | [] => if begWith (List.replicate k bq) [] then some 0 else none
  | c :: rest =>
    if begWith (List.replicate k bq) (c :: rest) then some 0
    else (idxRun k rest).map (· + 1)

/-- Backtracking over the opening-fence length of
``CODE_BLOCK_RE = (```+)([^\n]*)\n(.*?)\1``: try the greedy length first
and shrink down to 3; for each candidate `k` the lazy body ends at the
first occurrence of `k` backticks after the newline at index `nl`. -/
def tryK : ℕ → ℕ → Str → Option ℕ
  | 0, _, _ => none
  | k + 1, nl, body =>
    if k + 1 < 3 then none
    else
      match idxRun (k + 1) body with
      | some m => some (nl + 1 + m + (k + 1))
      | none => tryK k nl body

/-- A ``CODE_BLOCK_RE`` match starting at the head of `s`: the opening run
of `r ≥ 3` backticks, the rest of the line as the info string, a newline,
then the lazy body up to the backreferenced closing run.  Returns the
length of the whole match. -/
def matchCodeAt (s : Str) : Option ℕ :=
  let r := tickRun s
  if r < 3 then none
  else
    match idxNewline s with
    | none => none
    | some nl => tryK r nl (s.drop (nl + 1))

/-- Scanning loop of `protect_code_blocks` (lines 96-111): walk the text;
at each position take the leftmost regex match, replace it by the next
placeholder and continue after it.  `fuel` bounds recursion by the input
length (each match consumes at least one character). -/
def protectGo : ℕ → Str → ℕ → Str × List (Str × Str)
  | 0, s, _ => (s, [])
  | fuel + 1, s, i =>
    match s with
    | [] => ([], [])
    | c :: rest =>
      match matchCodeAt (c :: rest) with
      | some L =>
        let block := (c :: rest).take L
        let r := protectGo fuel ((c :: rest).drop L) (i + 1)
        (placeholder i ++ r.1, (placeholder i, block) :: r.2)
      | none =>
        let r := protectGo fuel rest i
        (c :: r.1, r.2)

/-- Embedding of `protect_code_blocks` (lines 96-111): replace each fenced
code block with `__CODE_BLOCK_<i>__`, returning the protected text and the
placeholder/original pairs in order. -/
def protect_code_blocks (text : Str) : Str × List (Str × Str) :=
  protectGo text.length text 0

/-- Embedding of Python `text.replace(old, new)` (all non-overlapping
occurrences, left to right), via a skip counter for the matched
characters. -/
def pyReplaceAux (pat rep : Str) : Str → ℕ → Str
  | [], _ => []
  | _ :: rest, skip + 1 => pyReplaceAux pat rep rest skip
  | c :: rest, 0 =>
    if pat ≠ [] ∧ begWith pat (c :: rest) then
      rep ++ pyReplaceAux pat rep rest (pat.length - 1)
    else c :: pyReplaceAux pat rep rest 0

def pyReplace (s pat rep : Str) : Str := pyReplaceAux pat rep s 0

/-- Embedding of `restore_code_blocks` (lines 114-118): substitute each
placeholder back, in order. -/
def restore_code_blocks (text : Str) (placeholders : List (Str × Str)) : Str :=
  placeholders.foldl (fun t pr => pyReplace t pr.1 pr.2) text

/-- Embedding of `YAMLFrontmatter` and its line-oriented `parse`
(lines 39-69). -/
structure YAMLFrontmatter where
  raw : Str
  tags : List Str
  create_date : Option Str
  extra : List (Str × Str)

/-- Split on single newlines (Python `s.split("\n")`). -/
def splitNL : Str → List Str
  | [] => [[]]
  | '\n' :: rest => [] :: splitNL rest
  | c :: rest => consHead c (splitNL rest)

/-- Python `line.split(":", 1)`: `none` when there is no colon. -/
def splitColon1 : Str → Option (Str × Str)
  | [] => none
  | ':' :: rest => some ([], rest)
  | c :: rest => (splitColon1 rest).map (fun p => (c :: p.1, p.2))

/-- One line of `YAMLFrontmatter.parse`: list items accumulate into `tags`;
a `create:` key is captured; `tags:` itself is dropped; any other
`key: value` goes to `extra` (dict assignment, later keys win on lookup). -/
def fmLine (acc : List Str × Option Str × List (Str × Str)) (line0 : Str) :
    List Str × Option Str × List (Str × Str) :=
  let line := pyStrip line0
  if begWith ("- ".toList) line then
    (acc.1 ++ [pyStrip (line.drop 2)], acc.2.1, acc.2.2)
  else
    match splitColon1 line with
    | some (k, v) =>
      let key := pyStrip k
      let value := pyStrip v
      if key = "create".toList then (acc.1, some value, acc.2.2)
      else if key = "tags".toList then acc
      else (acc.1, acc.2.1, acc.2.2 ++ [(key, value)])
    | none => acc

def parseFrontmatter (raw : Str) : YAMLFrontmatter :=
  let res := (splitNL (pyStrip raw)).foldl fmLine ([], none, [])
  { raw := raw, tags := res.1, create_date := res.2.1, extra := res.2.2 }

/-- Largest index within the whitespace run at the head of `s` holding a
newline (the position where the backtracked `\s*\n` of
`YAML_FRONTMATTER_RE` places its final newline). -/
def lastNlInWsRun : Str → Option ℕ
  | [] => none
  | c :: rest =>
    if isReWs c then
      match lastNlInWsRun rest with
      | some j => some (j + 1)
      | none => if c = '\n' then some 0 else none
    else none

/-- Match of `---\s*\n` at the head of `r` (a closing frontmatter fence
without the optional leading newline): returns the match length. -/
def matchDashes (r : Str) : Option ℕ :=
  if begWith ("---".toList) r then
    match lastNlInWsRun (r.drop 3) with
    | some j => some (3 + j + 1)
    | none => none
  else none

/-- Match of `\n?---\s*\n` at the head of `s` (greedy `\n?` first). -/
def matchCloseAt (s : Str) : Option ℕ :=
  match s with
  | '\n' :: r =>
    match matchDashes r with
    | some L => some (L + 1)
    | none => matchDashes s
  | _ => matchDashes s

/-- Lazy search for the closing fence: smallest content length `clen` such
that the remainder matches `\n?---\s*\n`, returned with that match's
length. -/
def findClose : Str → Option (ℕ × ℕ)
  | [] => none
  | c :: rest =>
    match matchCloseAt (c :: rest) with
    | some L => some (0, L)
    | none => (findClose rest).map (fun p => (p.1 + 1, p.2))

/-- Embedding of `extract_frontmatter` (lines 126-138):
`YAML_FRONTMATTER_RE.match` anchored at the start; on a match, parse the
captured YAML and return the remaining body, otherwise return the text
unchanged. -/
def extract_frontmatter (text : Str) : Option YAMLFrontmatter × Str :=
  if begWith ("---".toList) text then
    match lastNlInWsRun (text.drop 3) with
    | none => (none, text)
    | some j =>
      let bodyStart := 3 + j + 1
      match findClose (text.drop bodyStart) with
      | none => (none, text)
      | some (clen, mlen) =>
        let yaml := (text.drop bodyStart).take clen
        (some (parseFrontmatter yaml), text.drop (bodyStart + clen + mlen))
  else (none, text)

/-- Embedding of `HeaderMark` (lines 72-80). -/
structure HeaderMark where
  position : ℕ
  end_position : ℕ
  level : ℕ
  title : Str
  path : List Str
deriving DecidableEq

/-- Largest index of `s` holding a character other than a newline. -/
def lastNonNlIdx : Str → Option ℕ
  | [] => none
  | c :: rest =>
    match lastNonNlIdx rest with
    | some j => some (j + 1)
    | none => if c = '\n' then none else some 0

def rstripWsRe (s : Str) : Str := (s.reverse.dropWhile isReWs).reverse

/-- Match of `HEADER_RE = ^(#{1,6})\s+(.+?)\s*$` (MULTILINE) at the head of
`s` (which the caller guarantees is a line start).  Returns
`(match length, level, group 2)`.  `\s+` may greedily cross newlines; when
the whitespace run reaches the end of the input the regex backtracks so
that `.+?` captures the last non-newline whitespace character. -/
def headerMatchAt (s : Str) : Option (ℕ × ℕ × Str) :=
  let n := (s.takeWhile (fun c => c = '#')).length
  if 1 ≤ n ∧ n ≤ 6 then
    let afterHash := s.drop n
    let w := (afterHash.takeWhile isReWs).length
    if w = 0 then none
    else
      match s.drop (n + w) with
      | [] =>
        match lastNonNlIdx ((afterHash.take w).drop 1) with
        | some j => some (n + w, n, (afterHash.drop (1 + j)).take 1)
        | none => none
      | _ :: _ =>
        let raw := (s.drop (n + w)).takeWhile (fun c => ¬ c = '\n')
        some (n + w + raw.length, n, rstripWsRe raw)
  else none

/-- Update of the six-slot header stack (lines 163-167): set slot
`level - 1`, clear the deeper slots. -/
def updStackGo (level : ℕ) (title : Str) : ℕ → List (Option Str) → List (Option Str)
  | _, [] => []
  | i, v :: rest =>
    (if i = level - 1 then some title else if level ≤ i then none else v) ::
      updStackGo level title (i + 1) rest

/-- The `finditer` scan of `extract_header_marks` (lines 146-182): try the
header regex at each line start, skipping line starts inside an earlier
match, and thread the breadcrumb stack. -/
def headerScan : ℕ → Str → ℕ → List (Option Str) → List HeaderMark
  | 0, _, _, _ => []
  | fuel + 1, s, pos, stack =>
    match headerMatchAt s with
    | some (len, level, g2) =>
      let title := pyStrip g2
      let stack' := updStackGo level title 0 stack
      let path := stack'.filterMap id
      let hm : HeaderMark :=
        { position := pos, end_position := pos + len, level := level,
          title := title, path := path }
      match s.drop len with
      | _ :: r2 => hm :: headerScan fuel r2 (pos + len + 1) stack'
      | [] => [hm]
    | none =>
      match s with
      | [] => []
      | _ :: _ =>
        let line := s.takeWhile (fun c => ¬ c = '\n')
        match s.drop line.length with
        | _ :: r2 => headerScan fuel r2 (pos + line.length + 1) stack
        | [] => []

/-- Embedding of `extract_header_marks` (lines 146-182). -/
def extract_header_marks (text : Str) : List HeaderMark :=
  headerScan (text.length + 1) text 0 (List.replicate 6 none)

/-- Chunk metadata (a Python dict; only the keys the code writes are
modelled).  The headerless whole-document chunk carries no `level` key and
stores the whole frontmatter object; section chunks carry the level and a
`{tags, create_date}` sub-map. -/
inductive FMVal where
  | full (fm : YAMLFrontmatter)
  | brief (tags : List Str) (create_date : Option Str)

structure ChunkMeta where
  source : Str
  header_path : Str
  headers : List Str
  level : Option ℕ := none
  frontmatter : Option FMVal := none
  extra : List (Str × Str) := []

/-- Embedding of `Chunk` (lines 83-88). -/
structure Chunk where
  text : Str
  metadata : ChunkMeta

/-- The breadcrumb string
`" > ".join(f"{'#' * (j + 1)} {h}" for j, h in enumerate(header.path))`. -/
def headerPathStr (path : List Str) : Str :=
  joinSep (" > ".toList)
    (path.enum.map (fun p => List.replicate (p.1 + 1) '#' ++ [' '] ++ p.2))

/-- The raw section text of each header: from its position to the next
header's position (or the end of the protected body) — lines 262-269. -/
def sectionsOf (pbody : Str) : List HeaderMark → List (HeaderMark × Str)
  | [] => []
  | [h] => [(h, (pbody.drop h.position).take (pbody.length - h.position))]
  | h :: h2 :: rest =>
    (h, (pbody.drop h.position).take (h2.position - h.position)) ::
      sectionsOf pbody (h2 :: rest)

/-- The metadata dict built for a section (lines 279-296). -/
def sectionMeta (source : Str) (extra_metadata : Option (List (Str × Str)))
    (frontmatter : Option YAMLFrontmatter) (header : HeaderMark) : ChunkMeta :=
  { source := source
    header_path := headerPathStr header.path
    headers := [header.title]
    level := some header.level
    extra := extra_metadata.getD []
    frontmatter := frontmatter.map (fun fm => FMVal.brief fm.tags fm.create_date) }

/-- The main chunk-assembly loop of `semantic_chunk` (lines 259-321):
sections at or above `chunk_level` flush the pending chunk (splitting it by
paragraphs when it exceeds `max_size`) and start a new one; deeper sections
are appended to the pending chunk, extending its `headers` list.  Returns
the emitted chunks and the final pending chunk. -/
def chunkLoop (max_size chunk_level : ℤ) (phs : List (Str × Str)) (source : Str)
    (extra_metadata : Option (List (Str × Str))) (frontmatter : Option YAMLFrontmatter) :
    List (HeaderMark × Str) → Option (Str × ChunkMeta) → List Chunk →
      List Chunk × Option (Str × ChunkMeta)
  | [], pending, chunks => (chunks, pending)
  | (header, raw) :: rest, pending, chunks =>
    let section_text := restore_code_blocks (pyStrip raw) phs
    if section_text = [] ∨ section_text = header.title then
      chunkLoop max_size chunk_level phs source extra_metadata frontmatter rest pending chunks
    else
      let metadata := sectionMeta source extra_metadata frontmatter header
      if (header.level : ℤ) ≤ chunk_level then
        match pending with
        | some (ptext, pmeta) =>
          if max_size < (ptext.length : ℤ) then
            chunkLoop max_size chunk_level phs source extra_metadata frontmatter rest
              (some (section_text, metadata))
              (chunks ++ (_split_by_paragraphs ptext max_size).map
                (fun sub => { text := sub, metadata := pmeta : Chunk }))
          else
            chunkLoop max_size chunk_level phs source extra_metadata frontmatter rest
              (some (section_text, metadata))
              (chunks ++ [{ text := ptext, metadata := pmeta }])
        | none =>
          chunkLoop max_size chunk_level phs source extra_metadata frontmatter rest
            (some (section_text, metadata)) chunks
      else
        match pending with
        | some (ptext, pmeta) =>
          chunkLoop max_size chunk_level phs source extra_metadata frontmatter rest
            (some (ptext ++ sepNN ++ section_text,
              { pmeta with headers := pmeta.headers ++ [header.title] })) chunks
        | none =>
          chunkLoop max_size chunk_level phs source extra_metadata frontmatter rest
            (some (section_text, metadata)) chunks

/-- The trailing-pending handling of `semantic_chunk` (lines 323-342):
merge a too-short final chunk into the previous one when the combination
fits in `max_size`, split a too-long one by paragraphs, else emit as-is. -/
def chunkTail (min_size max_size : ℤ) (pr : List Chunk × Option (Str × ChunkMeta)) :
    List Chunk :=
  match pr.2 with
  | none => pr.1
  | some (ptext, pmeta) =>
    if (ptext.length : ℤ) < min_size then
      match pr.1.getLast? with
      | some lc =>
        let merged := lc.text ++ sepNN ++ ptext
        let lcm : ChunkMeta :=
          { lc.metadata with headers := lc.metadata.headers ++ pmeta.headers }
        if (merged.length : ℤ) ≤ max_size then
          pr.1.dropLast ++ [{ text := merged, metadata := lcm }]
        else pr.1 ++ [{ text := ptext, metadata := pmeta }]
      | none => pr.1 ++ [{ text := ptext, metadata := pmeta }]
    else if max_size < (ptext.length : ℤ) then
      pr.1 ++ (_split_by_paragraphs ptext max_size).map
        (fun sub => { text := sub, metadata := pmeta })
    else pr.1 ++ [{ text := ptext, metadata := pmeta }]

/-- Embedding of `semantic_chunk` (lines 214-344). -/
def semantic_chunk (text source : Str) (extra_metadata : Option (List (Str × Str)))
    (min_size max_size : ℤ) (chunk_level : ℤ) : List Chunk :=
  let fm_body := extract_frontmatter text
  let frontmatter := fm_body.1
  let body := fm_body.2
  let pc := protect_code_blocks body
  let protected_body := pc.1
  let code_placeholders := pc.2
  let header_marks := extract_header_marks protected_body
  if header_marks = [] then
    [{ text := pyStrip (restore_code_blocks body code_placeholders)
       metadata := { source := source, header_path := [], headers := []
                     frontmatter := frontmatter.map FMVal.full
                     extra := extra_metadata.getD [] } }]
  else
    chunkTail min_size max_size
      (chunkLoop max_size chunk_level code_placeholders source extra_metadata frontmatter
        (sectionsOf protected_body header_marks) none [])

theorem splitNN_first_char : ∀ (s : Str) (p0 : Str) (ps : List Str),
    splitNN s = p0 :: ps → ∀ d t, p0 = d :: t → s.head? = some d := by
  intro s
  induction s using splitNN.induct with
  | case1 =>
    intro p0 ps h d t hp
    simp only [splitNN] at h
    cases h
    cases hp
  | case2 rest ih =>
    intro p0 ps h d t hp
    simp only [splitNN] at h
    obtain ⟨h1, _⟩ := List.cons.inj h
    rw [← h1] at hp
    cases hp
  | case3 c rest h3 ih =>
    intro p0 ps h d t hp
    rw [splitNN.eq_3 c rest h3] at h
    cases hr : splitNN rest with
    | nil => exact absurd hr (splitNN_ne_nil rest)
    | cons q qs =>
      rw [hr] at h
      simp only [consHead] at h
      obtain ⟨h1, _⟩ := List.cons.inj h
      rw [← h1] at hp
      obtain ⟨hd, _⟩ := List.cons.inj hp
      simp [hd]

theorem splitNN_no_sep : ∀ (s : Str), ∀ p ∈ splitNN s, hasOcc sepNN p = false := by
  intro s
  induction s using splitNN.induct with
  | case1 =>
    intro p hp
    simp only [splitNN, List.mem_singleton] at hp
    subst hp
    rfl
  | case2 rest ih =>
    intro p hp
    simp only [splitNN, List.mem_cons] at hp
    rcases hp with rfl | hp
    · rfl
    · exact ih p hp
  | case3 c rest h3 ih =>
    intro p hp
    rw [splitNN.eq_3 c rest h3] at hp
    cases hr : splitNN rest with
    | nil => exact absurd hr (splitNN_ne_nil rest)
    | cons q qs =>
      rw [hr] at hp
      simp only [consHead, List.mem_cons] at hp
      rcases hp with rfl | hp
      · have hq : hasOcc sepNN q = false := ih q (by rw [hr]; exact List.mem_cons_self _ _)
        simp only [hasOcc, Bool.or_eq_false_iff]
        refine ⟨?_, hq⟩
        simp only [sepNN, begWith, Bool.and_eq_false_iff]
        by_cases hc : c = '\n'
        · subst hc
          right
          cases hq2 : q with
          | nil => rfl
          | cons d tq =>
            have hd : rest.head? = some d :=
              splitNN_first_char rest q qs hr d tq hq2
            cases rest with
            | nil => cases hd
            | cons r0 rr =>
              simp only [List.head?] at hd
              cases hd
              have hdn : ¬ d = '\n' := fun hdd => h3 rr rfl (by rw [hdd])
              have hne : ¬ '\n' = d := fun hh => hdn hh.symm
              simp [begWith, hne]
        · left
          have hne : ¬ '\n' = c := fun hh => hc hh.symm
          simp [begWith, hne]
      · exact ih p (by rw [hr]; exact List.mem_cons_of_mem _ hp)

theorem splitNN_of_no_sep : ∀ s : Str, hasOcc sepNN s = false → splitNN s = [s] := by
  intro s
  induction s using splitNN.induct with
  | case1 => intro _; rfl
  | case2 rest ih =>
    intro h
    exfalso
    simp only [hasOcc, Bool.or_eq_false_iff] at h
    have : begWith sepNN ('\n' :: '\n' :: rest) = true := by
      simp [sepNN, begWith]
    rw [h.1] at this
    cases this
  | case3 c rest h3 ih =>
    intro h
    simp only [hasOcc, Bool.or_eq_false_iff] at h
    rw [splitNN.eq_3 c rest h3, ih h.2, consHead]

theorem sbpGo_bound (m : ℤ) : ∀ (paras chunks current : List Str) (sz : ℤ),
    (current = [] → sz = 0) →
    (current ≠ [] → sz = ((joinSep sepNN current).length : ℤ) + 2 ∧
      (((joinSep sepNN current).length : ℤ) + 2 ≤ m ∨ ∃ p, current = [p])) →
    ∀ piece ∈ sbpGo m paras chunks current sz,
      piece ∈ chunks ∨ (piece.length : ℤ) ≤ m ∨ piece ∈ paras ∨ piece ∈ current := by
  intro paras
  induction paras with
  | nil =>
    intro chunks current sz hemp hinv piece hp
    simp only [sbpGo] at hp
    by_cases hc : current = []
    · rw [if_neg (by simpa using hc)] at hp
      exact Or.inl hp
    · rw [if_pos (by simpa using hc)] at hp
      rcases List.mem_append.mp hp with h | h
      · exact Or.inl h
      · simp only [List.mem_singleton] at h
        subst h
        obtain ⟨_, hbd⟩ := hinv hc
        rcases hbd with hbd | ⟨p, hp1⟩
        · exact Or.inr (Or.inl (by omega))
        · subst hp1
          exact Or.inr (Or.inr (Or.inr (by simp)))
  | cons p rest ih =>
    intro chunks current sz hemp hinv piece hp
    simp only [sbpGo] at hp
    by_cases hcond : m < sz + p.length + 2 ∧ current ≠ []
    · rw [if_pos hcond] at hp
      have hres := ih (chunks ++ [joinSep sepNN current]) [p] ((p.length : ℤ) + 2)
        (by intro h; cases h)
        (by intro _; exact ⟨by simp, Or.inr ⟨p, rfl⟩⟩)
        piece hp
      rcases hres with h | h | h | h
      · rcases List.mem_append.mp h with h' | h'
        · exact Or.inl h'
        · simp only [List.mem_singleton] at h'
          subst h'
          obtain ⟨_, hbd⟩ := hinv hcond.2
          rcases hbd with hbd | ⟨q, hq⟩
          · exact Or.inr (Or.inl (by omega))
          · subst hq
            exact Or.inr (Or.inr (Or.inr (by simp)))
      · exact Or.inr (Or.inl h)
      · exact Or.inr (Or.inr (Or.inl (List.mem_cons_of_mem _ h)))
      · simp only [List.mem_singleton] at h
        subst h
        exact Or.inr (Or.inr (Or.inl (List.mem_cons_self _ _)))
    · rw [if_neg hcond] at hp
      have hinv' : (current ++ [p] ≠ []) →
          sz + p.length + 2 = ((joinSep sepNN (current ++ [p])).length : ℤ) + 2 ∧
          (((joinSep sepNN (current ++ [p])).length : ℤ) + 2 ≤ m ∨
            ∃ q, current ++ [p] = [q]) := by
        intro _
        by_cases hc : current = []
        · subst hc
          have h0 := hemp rfl
          constructor
          · simp [h0]
          · exact Or.inr ⟨p, by simp⟩
        · obtain ⟨hsz, _⟩ := hinv hc
          have hjoin : joinSep sepNN (current ++ [p]) =
              joinSep sepNN current ++ sepNN ++ p :=
            joinSep_append sepNN current [p] hc (by simp)
          have hlen : ((joinSep sepNN (current ++ [p])).length : ℤ) =
              ((joinSep sepNN current).length : ℤ) + 2 + p.length := by
            rw [hjoin]; simp [sepNN]; omega
          have hle : ¬ m < sz + p.length + 2 := by
            intro hlt; exact hcond ⟨hlt, hc⟩
          constructor
          · omega
          · exact Or.inl (by omega)
      have hres := ih chunks (current ++ [p]) (sz + p.length + 2)
        (by intro h; simp at h) hinv' piece hp
      rcases hres with h | h | h | h
      · exact Or.inl h
      · exact Or.inr (Or.inl h)
      · exact Or.inr (Or.inr (Or.inl (List.mem_cons_of_mem _ h)))
      · rcases List.mem_append.mp h with h' | h'
        · exact Or.inr (Or.inr (Or.inr h'))
        · simp only [List.mem_singleton] at h'
          subst h'
          exact Or.inr (Or.inr (Or.inl (List.mem_cons_self _ _)))

theorem split_by_paragraphs_piece (t : Str) (m : ℤ) :
    ∀ piece ∈ _split_by_paragraphs t m,
      (piece.length : ℤ) ≤ m ∨ piece ∈ splitNN t := by
  intro piece hp
  have := sbpGo_bound m (splitNN t) [] [] 0 (fun _ => rfl)
    (by intro h; exact absurd rfl h) piece hp
  rcases this with h | h | h | h
  · cases h
  · exact Or.inl h
  · exact Or.inr h
  · cases h

/-- The per-chunk size property: either the text fits in `max_size`, or it
contains a whole blank-line-free paragraph longer than `max_size`. -/
def chunkOk (m : ℤ) (c : Chunk) : Prop :=
  (c.text.length : ℤ) ≤ m ∨ ∃ p ∈ splitNN c.text, m < (p.length : ℤ)

theorem split_piece_ok (m : ℤ) (ptext : Str) (meta : ChunkMeta) :
    ∀ piece ∈ _split_by_paragraphs ptext m,
      chunkOk m { text := piece, metadata := meta } := by
  intro piece hp
  by_cases hle : (piece.length : ℤ) ≤ m
  · exact Or.inl hle
  · rcases split_by_paragraphs_piece ptext m piece hp with h | h
    · exact absurd h hle
    · right
      have hns := splitNN_no_sep ptext piece h
      refine ⟨piece, ?_, by omega⟩
      show piece ∈ splitNN piece
      rw [splitNN_of_no_sep piece hns]
      exact List.mem_singleton.mpr rfl

theorem mem_dropLast {α : Type} (a : α) : ∀ l : List α, a ∈ l.dropLast → a ∈ l := by
  intro l
  induction l with
  | nil => intro h; cases h
  | cons x xs ih =>
    intro h
    cases xs with
    | nil => cases h
    | cons y ys =>
      rw [List.dropLast_cons₂] at h
      rcases List.mem_cons.mp h with rfl | h'
      · exact List.mem_cons_self _ _
      · exact List.mem_cons_of_mem _ (ih h')

theorem chunkLoop_ok (m lvl : ℤ) (phs : List (Str × Str)) (src : Str)
    (extra : Option (List (Str × Str))) (fm : Option YAMLFrontmatter) :
    ∀ (items : List (HeaderMark × Str)) (pending : Option (Str × ChunkMeta))
      (chunks : List Chunk),
      (∀ c ∈ chunks, chunkOk m c) →
      ∀ c ∈ (chunkLoop m lvl phs src extra fm items pending chunks).1, chunkOk m c := by
  intro items
  induction items with
  | nil =>
    intro pending chunks hok c hc
    simp only [chunkLoop] at hc
    exact hok c hc
  | cons item rest ih =>
    obtain ⟨header, raw⟩ := item
    intro pending chunks hok c hc
    cases pending with
    | none =>
      simp only [chunkLoop] at hc
      by_cases hskip : restore_code_blocks (pyStrip raw) phs = [] ∨
          restore_code_blocks (pyStrip raw) phs = header.title
      · rw [if_pos hskip] at hc
        exact ih none chunks hok c hc
      · rw [if_neg hskip] at hc
        by_cases hlev : (header.level : ℤ) ≤ lvl
        · rw [if_pos hlev] at hc
          exact ih _ chunks hok c hc
        · rw [if_neg hlev] at hc
          exact ih _ chunks hok c hc
    | some pd =>
      obtain ⟨ptext, pmeta⟩ := pd
      simp only [chunkLoop] at hc
      by_cases hskip : restore_code_blocks (pyStrip raw) phs = [] ∨
          restore_code_blocks (pyStrip raw) phs = header.title
      · rw [if_pos hskip] at hc
        exact ih _ chunks hok c hc
      · rw [if_neg hskip] at hc
        by_cases hlev : (header.level : ℤ) ≤ lvl
        · rw [if_pos hlev] at hc
          by_cases hbig : m < (ptext.length : ℤ)
          · rw [if_pos hbig] at hc
            refine ih _ _ ?_ c hc
            intro d hd
            rcases List.mem_append.mp hd with h | h
            · exact hok d h
            · obtain ⟨piece, hpc, rfl⟩ := List.mem_map.mp h
              exact split_piece_ok m ptext pmeta piece hpc
          · rw [if_neg hbig] at hc
            refine ih _ _ ?_ c hc
            intro d hd
            rcases List.mem_append.mp hd with h | h
            · exact hok d h
            · simp only [List.mem_singleton] at h
              subst h
              exact Or.inl (by show ((ptext.length : ℤ)) ≤ m; omega)
        · rw [if_neg hlev] at hc
          exact ih _ chunks hok c hc

theorem chunkTail_ok (mn m : ℤ) (hmn : mn ≤ m) (pr : List Chunk × Option (Str × ChunkMeta))
    (hok : ∀ c ∈ pr.1, chunkOk m c) :
    ∀ c ∈ chunkTail mn m pr, chunkOk m c := by
  intro c hc
  obtain ⟨chunks, pending⟩ := pr
  cases pending with
  | none =>
    simp only [chunkTail] at hc
    exact hok c hc
  | some pd =>
    obtain ⟨ptext, pmeta⟩ := pd
    simp only [chunkTail] at hc
    by_cases hsmall : (ptext.length : ℤ) < mn
    · rw [if_pos hsmall] at hc
      cases hlast : chunks.getLast? with
      | some lc =>
        simp only [hlast] at hc
        by_cases hfit : ((lc.text ++ sepNN ++ ptext).length : ℤ) ≤ m
        · rw [if_pos hfit] at hc
          rcases List.mem_append.mp hc with h | h
          · exact hok c (mem_dropLast c chunks h)
          · simp only [List.mem_singleton] at h
            subst h
            exact Or.inl hfit
        · rw [if_neg hfit] at hc
          rcases List.mem_append.mp hc with h | h
          · exact hok c h
          · simp only [List.mem_singleton] at h
            subst h
            exact Or.inl (by show ((ptext.length : ℤ)) ≤ m; omega)
      | none =>
        simp only [hlast] at hc
        rcases List.mem_append.mp hc with h | h
        · exact hok c h
        · simp only [List.mem_singleton] at h
          subst h
          exact Or.inl (by show ((ptext.length : ℤ)) ≤ m; omega)
    · rw [if_neg hsmall] at hc
      by_cases hbig : m < (ptext.length : ℤ)
      · rw [if_pos hbig] at hc
        rcases List.mem_append.mp hc with h | h
        · exact hok c h
        · obtain ⟨piece, hpc, rfl⟩ := List.mem_map.mp h
          exact split_piece_ok m ptext pmeta piece hpc
      · rw [if_neg hbig] at hc
        rcases List.mem_append.mp hc with h | h
        · exact hok c h
        · simp only [List.mem_singleton] at h
          subst h
          exact Or.inl (by show ((ptext.length : ℤ)) ≤ m; omega)

/-- C3 amended: provided `min_size ≤ max_size`, every chunk emitted by
`semantic_chunk` has `len(text) ≤ max_size` unless the chunk contains a
single blank-line-free paragraph longer than `max_size` (protected code
blocks being one source of such paragraphs, but not the only one), or the
document has no headers at all, in which case the whole body is emitted as
one chunk regardless of size. -/
theorem C3_chunk_size_bound (text source : Str) (extra : Option (List (Str × Str)))
    (min_size max_size chunk_level : ℤ) (hmn : min_size ≤ max_size) :
    ∀ c ∈ semantic_chunk text source extra min_size max_size chunk_level,
      (c.text.length : ℤ) ≤ max_size ∨
      (∃ p ∈ splitNN c.text, max_size < (p.length : ℤ)) ∨
      extract_header_marks (protect_code_blocks (extract_frontmatter text).2).1 = [] := by
  intro c hc
  simp only [semantic_chunk] at hc
  by_cases hhm : extract_header_marks (protect_code_blocks (extract_frontmatter text).2).1 = []
  · exact Or.inr (Or.inr hhm)
  · rw [if_neg hhm] at hc
    have hloopok : ∀ d ∈ (chunkLoop max_size chunk_level
        (protect_code_blocks (extract_frontmatter text).2).2 source extra
        (extract_frontmatter text).1
        (sectionsOf (protect_code_blocks (extract_frontmatter text).2).1
          (extract_header_marks (protect_code_blocks (extract_frontmatter text).2).1))
        none []).1, chunkOk max_size d :=
      chunkLoop_ok max_size chunk_level _ source extra _ _ none []
        (by intro d hd; cases hd)
    have := chunkTail_ok min_size max_size hmn
      (chunkLoop max_size chunk_level (protect_code_blocks (extract_frontmatter text).2).2
        source extra (extract_frontmatter text).1
        (sectionsOf (protect_code_blocks (extract_frontmatter text).2).1
          (extract_header_marks (protect_code_blocks (extract_frontmatter text).2).1))
        none []) hloopok c hc
    rcases this with h | h
    · exact Or.inl h
    · exact Or.inr (Or.inl h)

theorem C3_chunk_size_bound_witness :
    (1 : ℤ) ≤ 100 ∧
    (((("hi".toList : Str).length : ℤ) ≤ 100) ∨
      (∃ p ∈ splitNN ("hi".toList), 100 < (p.length : ℤ)) ∨
      extract_header_marks (protect_code_blocks
        (extract_frontmatter ("hi".toList)).2).1 = []) :=
  ⟨by decide,
   C3_chunk_size_bound ("hi".toList) ("n.md".toList) none 1 100 2 (by decide)
     { text := "hi".toList,
       metadata := { source := "n.md".toList, header_path := [], headers := [] } }
     (by
      rw [show semantic_chunk ("hi".toList) ("n.md".toList) none 1 100 2 =
          [{ text := "hi".toList,
             metadata := { source := "n.md".toList, header_path := [],
                           headers := [] } }] from rfl]
      exact List.mem_singleton.mpr rfl)⟩

/-- C3 counterexample: the document "aaaaaaa" (7 chars, no headers, no code
blocks) with min_size = 1, max_size = 5 is emitted as a single 7-character
chunk, and the set of protected code-block placeholders is empty — so a chunk
may exceed max_size even with no protected code block anywhere in the input. -/
theorem placeholder_expand (j : ℕ) : placeholder j =
    '_' :: '_' :: 'C' :: 'O' :: 'D' :: 'E' :: '_' :: 'B' :: 'L' :: 'O' :: 'C' :: 'K' ::
      '_' :: (natStr j ++ ['_', '_']) := by
  simp [placeholder]

theorem begWith_of_append (a b s : Str) (h : begWith (a ++ b) s = true) :
    begWith a s = true := by
  rw [begWith_iff] at h ⊢
  obtain ⟨t, rfl⟩ := h
  exact ⟨b ++ t, by simp⟩

theorem digits_boundary : ∀ (a b u v : Str),
    (∀ c ∈ a, ∃ d, d < 10 ∧ c = digitChar d) →
    (∀ c ∈ b, ∃ d, d < 10 ∧ c = digitChar d) →
    a ++ '_' :: u = b ++ '_' :: v → a = b := by
  intro a
  induction a with
  | nil =>
    intro b u v _ hb h
    cases b with
    | nil => rfl
    | cons c b' =>
      rw [List.nil_append, List.cons_append] at h
      obtain ⟨h1, _⟩ := List.cons.inj h
      obtain ⟨d, hd, rfl⟩ := hb c (List.mem_cons_self _ _)
      exact absurd h1.symm (digitChar_ne_underscore d hd)
  | cons c a' ih =>
    intro b u v ha hb h
    cases b with
    | nil =>
      rw [List.nil_append, List.cons_append] at h
      obtain ⟨h1, _⟩ := List.cons.inj h
      obtain ⟨d, hd, rfl⟩ := ha c (List.mem_cons_self _ _)
      exact absurd h1 (digitChar_ne_underscore d hd)
    | cons c' b' =>
      rw [List.cons_append, List.cons_append] at h
      obtain ⟨h1, h2⟩ := List.cons.inj h
      rw [h1, ih b' u v (fun x hx => ha x (List.mem_cons_of_mem _ hx))
        (fun x hx => hb x (List.mem_cons_of_mem _ hx)) h2]

theorem hasOcc_append_cases (pat : Str) : ∀ (a b : Str),
    hasOcc pat (a ++ b) = true →
    (∃ t, t < a.length ∧ begWith pat (a.drop t ++ b) = true) ∨
      hasOcc pat b = true := by
  intro a
  induction a with
  | nil => intro b h; exact Or.inr h
  | cons c a' ih =>
    intro b h
    rw [List.cons_append] at h
    simp only [hasOcc, Bool.or_eq_true] at h
    rcases h with h | h
    · exact Or.inl ⟨0, by simp, by simpa using h⟩
    · rcases ih b h with ⟨t, ht, hb⟩ | h'
      · exact Or.inl ⟨t + 1, by simpa using ht, by simpa using hb⟩
      · exact Or.inr h'

/-- Shape invariant of the protected text: an interleaving of
non-underscore characters and placeholder instances with indices `≥ i`. -/
inductive Mixed : ℕ → Str → Prop
  | nil (i : ℕ) : Mixed i []
  | chr (i : ℕ) (c : Char) (P : Str) (hc : c ≠ '_') (h : Mixed i P) : Mixed i (c :: P)
  | ph (i j : ℕ) (P : Str) (hj : i ≤ j) (h : Mixed i P) : Mixed i (placeholder j ++ P)

theorem mixed_of_noUnd (i : ℕ) : ∀ s : Str, (∀ c ∈ s, c ≠ '_') → Mixed i s := by
  intro s
  induction s with
  | nil => intro _; exact Mixed.nil i
  | cons c s' ih =>
    intro h
    exact Mixed.chr i c s' (h c (List.mem_cons_self _ _))
      (ih (fun x hx => h x (List.mem_cons_of_mem _ hx)))

theorem mixed_mono (i i' : ℕ) (hle : i ≤ i') : ∀ P : Str, Mixed i' P → Mixed i P := by
  intro P h
  induction h with
  | nil => exact Mixed.nil i
  | chr c P hc _ ih => exact Mixed.chr i c P hc ih
  | ph j P hj _ ih => exact Mixed.ph i j P (le_trans hle hj) ih

theorem mixed_peel (i : ℕ) (x : Char) (u : Str) (hx : x ≠ '_') :
    ∀ P : Str, Mixed i P → begWith (x :: u) P = true →
      ∃ P', Mixed i P' ∧ begWith u P' = true := by
  intro P h
  cases h with
  | nil => intro hb; cases hb
  | chr c P' hc h' =>
    intro hb
    simp only [begWith, Bool.and_eq_true, beq_iff_eq] at hb
    exact ⟨P', h', hb.2⟩
  | ph j P' hj h' =>
    intro hb
    rw [placeholder_expand] at hb
    simp only [List.cons_append, begWith, Bool.and_eq_true, beq_iff_eq] at hb
    exact absurd hb.1 hx

theorem mixed_us_nonus (i : ℕ) (y : Char) (u : Str) (hy : y ≠ '_') :
    ∀ P : Str, Mixed i P → begWith ('_' :: y :: u) P = false := by
  intro P h
  cases h with
  | nil => rfl
  | chr c P' hc h' =>
    simp only [begWith, Bool.and_eq_false_iff]
    left
    simp only [beq_eq_false_iff_ne, ne_eq]
    exact fun hh => hc hh.symm
  | ph j P' hj h' =>
    rw [placeholder_expand]
    simp only [List.cons_append, begWith, Bool.and_eq_false_iff]
    right; left
    simp only [beq_eq_false_iff_ne, ne_eq]
    exact hy

theorem mixed_us_nonus2 (i : ℕ) (y : Char) (hy : y ≠ '_') (p P : Str) (hM : Mixed i P)
    (hp : ∃ u, p = '_' :: y :: u) (hb : begWith p P = true) : False := by
  obtain ⟨u, rfl⟩ := hp
  rw [mixed_us_nonus i y u hy P hM] at hb
  exact Bool.false_ne_true hb

theorem placeholder_split (k : ℕ) : placeholder k =
    ['_', '_', 'C', 'O', 'D', 'E', '_', 'B', 'L', 'O', 'C', 'K', '_'] ++
      (natStr k ++ ['_', '_']) := by
  rw [placeholder_expand]; rfl

/-- No placeholder with index below `i` occurs in a `Mixed i` string: a
placeholder occurrence must align with a placeholder instance, whose index
is at least `i`. -/
theorem mixed_hasOcc_ge (i : ℕ) : ∀ P : Str, Mixed i P →
    ∀ j : ℕ, hasOcc (placeholder j) P = true → i ≤ j := by
  intro P h
  induction h with
  | nil =>
    intro j hj
    simp [hasOcc, placeholder_expand, begWith] at hj
  | chr c P' hc _ ih =>
    intro j hj
    simp only [hasOcc, Bool.or_eq_true] at hj
    rcases hj with hj | hj
    · rw [placeholder_expand] at hj
      simp only [begWith, Bool.and_eq_true, beq_iff_eq] at hj
      exact absurd hj.1.symm hc
    · exact ih j hj
  | ph k P' hk hM ih =>
    intro j hj
    rcases hasOcc_append_cases (placeholder j) (placeholder k) P' hj with ⟨t, ht, hb⟩ | hj'
    · rw [placeholder_split k, List.length_append] at ht
      rw [placeholder_split k, List.drop_append_eq_append_drop] at hb
      have hL13 : (['_', '_', 'C', 'O', 'D', 'E', '_', 'B', 'L', 'O', 'C', 'K', '_']
          : Str).length = 13 := rfl
      have hLR : (natStr k ++ ['_', '_']).length = (natStr k).length + 2 := by simp
      rw [hL13, hLR] at ht
      rw [hL13] at hb
      by_cases ht0 : t = 0
      · subst ht0
        simp only [List.drop_zero, Nat.zero_sub] at hb
        rw [begWith_iff] at hb
        obtain ⟨w, hw⟩ := hb
        rw [placeholder_split j] at hw
        simp only [List.append_assoc] at hw
        have hcancel := List.append_cancel_left hw
        simp only [List.cons_append, List.nil_append] at hcancel
        have hdig := digits_boundary (natStr k) (natStr j) ('_' :: P') ('_' :: w)
          (natStr_digits k) (natStr_digits j) hcancel
        rw [natStr_inj k j hdig] at hk
        exact hk
      · by_cases ht12 : t ≤ 12
        · have h1 : 1 ≤ t := by omega
          have hts : t - 13 = 0 := by omega
          rw [hts, List.drop_zero] at hb
          interval_cases t
          · simp [placeholder_expand, begWith] at hb
          · simp [placeholder_expand, begWith] at hb
          · simp [placeholder_expand, begWith] at hb
          · simp [placeholder_expand, begWith] at hb
          · simp [placeholder_expand, begWith] at hb
          · simp [placeholder_expand, begWith] at hb
          · simp [placeholder_expand, begWith] at hb
          · simp [placeholder_expand, begWith] at hb
          · simp [placeholder_expand, begWith] at hb
          · simp [placeholder_expand, begWith] at hb
          · simp [placeholder_expand, begWith] at hb
          · -- t = 12: the string continues with the digits of `natStr k`
            simp only [placeholder_expand, List.drop, List.cons_append, List.nil_append,
              begWith, Bool.and_eq_true, beq_iff_eq] at hb
            obtain ⟨-, hb2⟩ := hb
            cases hns : natStr k with
            | nil => exact absurd hns (natStr_ne_nil k)
            | cons c0 tl =>
              rw [hns] at hb2
              simp only [List.cons_append, begWith, Bool.and_eq_true, beq_iff_eq] at hb2
              obtain ⟨d, hd, hcd⟩ := natStr_digits k c0 (by rw [hns]; exact List.mem_cons_self _ _)
              rw [hcd] at hb2
              exact absurd hb2.1.symm (digitChar_ne_underscore d hd)
        · -- t ≥ 13: inside the digits or the trailing underscores
          have hskip : (['_', '_', 'C', 'O', 'D', 'E', '_', 'B', 'L', 'O', 'C', 'K', '_']
              : Str).drop t = [] := List.drop_eq_nil_of_le (by simp; omega)
          rw [hskip, List.nil_append, List.drop_append_eq_append_drop] at hb
          by_cases hr1 : t - 13 < (natStr k).length
          · obtain ⟨c0, tl, hdr⟩ : ∃ c0 tl, (natStr k).drop (t - 13) = c0 :: tl := by
              cases hcs : (natStr k).drop (t - 13) with
              | nil =>
                have := List.drop_eq_nil_iff.mp hcs
                omega
              | cons x xs => exact ⟨x, xs, rfl⟩
            rw [hdr] at hb
            have hc0 : c0 ∈ natStr k :=
              List.drop_subset _ _ (by rw [hdr]; exact List.mem_cons_self _ _)
            obtain ⟨d, hd, hcd⟩ := natStr_digits k c0 hc0
            rw [placeholder_expand j] at hb
            simp only [List.cons_append, begWith, Bool.and_eq_true, beq_iff_eq] at hb
            rw [hcd] at hb
            exact absurd hb.1.symm (digitChar_ne_underscore d hd)
          · by_cases hr2 : t - 13 = (natStr k).length
            · rw [hr2, List.drop_length, List.nil_append] at hb
              have hts : (natStr k).length - (natStr k).length = 0 := by omega
              rw [hts] at hb
              simp only [placeholder_expand, List.drop_zero, List.cons_append,
                List.nil_append, begWith, Bool.and_eq_true, beq_iff_eq, true_and] at hb
              obtain ⟨P1, hM1, hb1⟩ := mixed_peel i 'C' _ (by decide) P' hM hb
              obtain ⟨P2, hM2, hb2⟩ := mixed_peel i 'O' _ (by decide) P1 hM1 hb1
              obtain ⟨P3, hM3, hb3⟩ := mixed_peel i 'D' _ (by decide) P2 hM2 hb2
              obtain ⟨P4, hM4, hb4⟩ := mixed_peel i 'E' _ (by decide) P3 hM3 hb3
              exact (mixed_us_nonus2 i 'B' (by decide) _ P4 hM4 ⟨_, rfl⟩ hb4).elim
            · by_cases hr3 : t - 13 = (natStr k).length + 1
              · rw [List.drop_eq_nil_of_le (by omega), List.nil_append] at hb
                have hts : t - 13 - (natStr k).length = 1 := by omega
                rw [hts] at hb
                simp only [placeholder_expand, List.drop, List.append_eq, List.cons_append,
                  List.nil_append, begWith, Bool.and_eq_true, beq_iff_eq, true_and] at hb
                exact (mixed_us_nonus2 i 'C' (by decide) _ P' hM ⟨_, rfl⟩ hb).elim
              · omega
    · exact ih j hj'

theorem placeholder_ne_nil (j : ℕ) : placeholder j ≠ [] := by
  rw [placeholder_expand]; simp

theorem tryK_pos : ∀ (k nl : ℕ) (body : Str) (L : ℕ), tryK k nl body = some L → 1 ≤ L := by
  intro k
  induction k with
  | zero => intro nl body L h; cases h
  | succ g ih =>
    intro nl body L h
    simp only [tryK] at h
    by_cases h3 : g + 1 < 3
    · rw [if_pos h3] at h; cases h
    · rw [if_neg h3] at h
      cases hir : idxRun (g + 1) body with
      | some m =>
        rw [hir] at h
        obtain rfl := Option.some.inj h
        omega
      | none =>
        rw [hir] at h
        exact ih nl body L h

theorem matchCodeAt_pos (s : Str) (L : ℕ) (h : matchCodeAt s = some L) : 1 ≤ L := by
  simp only [matchCodeAt] at h
  by_cases hr : tickRun s < 3
  · rw [if_pos hr] at h; cases h
  · rw [if_neg hr] at h
    cases hnl : idxNewline s with
    | none => rw [hnl] at h; cases h
    | some nl =>
      rw [hnl] at h
      exact tryK_pos (tickRun s) nl (s.drop (nl + 1)) L h

theorem protectGo_mixed : ∀ (fuel : ℕ) (s : Str) (i : ℕ), (∀ c ∈ s, c ≠ '_') →
    Mixed i (protectGo fuel s i).1 := by
  intro fuel
  induction fuel with
  | zero => intro s i h; exact mixed_of_noUnd i s h
  | succ f ih =>
    intro s i h
    cases s with
    | nil => exact Mixed.nil i
    | cons c rest =>
      cases hm : matchCodeAt (c :: rest) with
      | some L =>
        have hgoal : (protectGo (f + 1) (c :: rest) i).1 =
            placeholder i ++ (protectGo f ((c :: rest).drop L) (i + 1)).1 := by
          simp only [protectGo, hm]
        rw [hgoal]
        exact Mixed.ph i i _ le_rfl (mixed_mono i (i + 1) (by omega) _
          (ih ((c :: rest).drop L) (i + 1) (fun x hx => h x (List.drop_subset _ _ hx))))
      | none =>
        have hgoal : (protectGo (f + 1) (c :: rest) i).1 =
            c :: (protectGo f rest i).1 := by
          simp only [protectGo, hm]
        rw [hgoal]
        exact Mixed.chr i c _ (h c (List.mem_cons_self _ _))
          (ih rest i (fun x hx => h x (List.mem_cons_of_mem _ hx)))

theorem protectGo_pairs : ∀ (fuel : ℕ) (s : Str) (i : ℕ),
    ∀ pr ∈ (protectGo fuel s i).2, ∃ j, i ≤ j ∧ pr.1 = placeholder j := by
  intro fuel
  induction fuel with
  | zero => intro s i pr hpr; cases hpr
  | succ f ih =>
    intro s i pr hpr
    cases s with
    | nil => cases hpr
    | cons c rest =>
      cases hm : matchCodeAt (c :: rest) with
      | some L =>
        have heq : (protectGo (f + 1) (c :: rest) i).2 =
            (placeholder i, (c :: rest).take L) ::
              (protectGo f ((c :: rest).drop L) (i + 1)).2 := by
          simp only [protectGo, hm]
        rw [heq] at hpr
        rcases List.mem_cons.mp hpr with rfl | hpr'
        · exact ⟨i, le_rfl, rfl⟩
        · obtain ⟨j, hij, hj⟩ := ih ((c :: rest).drop L) (i + 1) pr hpr'
          exact ⟨j, by omega, hj⟩
      | none =>
        have heq : (protectGo (f + 1) (c :: rest) i).2 = (protectGo f rest i).2 := by
          simp only [protectGo, hm]
        rw [heq] at hpr
        exact ih rest i pr hpr

theorem pyReplaceAux_skip (pat rep : Str) : ∀ (x y : Str),
    pyReplaceAux pat rep (x ++ y) x.length = pyReplaceAux pat rep y 0 := by
  intro x
  induction x with
  | nil => intro y; rfl
  | cons c x' ih =>
    intro y
    rw [List.cons_append]
    show pyReplaceAux pat rep (c :: (x' ++ y)) (x'.length + 1) = _
    rw [show pyReplaceAux pat rep (c :: (x' ++ y)) (x'.length + 1) =
      pyReplaceAux pat rep (x' ++ y) x'.length from rfl]
    exact ih y

theorem pyReplace_head_match (pat rep b : Str) (hne : pat ≠ []) :
    pyReplace (pat ++ b) pat rep = rep ++ pyReplace b pat rep := by
  cases pat with
  | nil => exact absurd rfl hne
  | cons p pt =>
    show pyReplaceAux (p :: pt) rep ((p :: pt) ++ b) 0 = _
    rw [List.cons_append]
    have hbw : begWith (p :: pt) (p :: (pt ++ b)) = true := by
      rw [show p :: (pt ++ b) = (p :: pt) ++ b from rfl]
      exact begWith_append _ _
    have hcond : (p :: pt) ≠ [] ∧ begWith (p :: pt) (p :: (pt ++ b)) = true :=
      ⟨by simp, hbw⟩
    rw [show pyReplaceAux (p :: pt) rep (p :: (pt ++ b)) 0 =
      if (p :: pt) ≠ [] ∧ begWith (p :: pt) (p :: (pt ++ b)) = true then
        rep ++ pyReplaceAux (p :: pt) rep (pt ++ b) ((p :: pt).length - 1)
      else p :: pyReplaceAux (p :: pt) rep (pt ++ b) 0 from rfl]
    rw [if_pos hcond]
    have hlen : (p :: pt).length - 1 = pt.length := by simp
    rw [hlen, pyReplaceAux_skip]
    rfl

theorem pyReplace_no_occ (pat rep : Str) : ∀ s : Str,
    hasOcc pat s = false → pyReplace s pat rep = s := by
  intro s
  induction s with
  | nil => intro _; rfl
  | cons c r ih =>
    intro h
    simp only [hasOcc, Bool.or_eq_false_iff] at h
    obtain ⟨hb, hr⟩ := h
    show pyReplaceAux pat rep (c :: r) 0 = c :: r
    rw [show pyReplaceAux pat rep (c :: r) 0 =
      if pat ≠ [] ∧ begWith pat (c :: r) = true then
        rep ++ pyReplaceAux pat rep r (pat.length - 1)
      else c :: pyReplaceAux pat rep r 0 from rfl]
    rw [if_neg (by rintro ⟨-, hbt⟩; rw [hb] at hbt; exact Bool.false_ne_true hbt)]
    rw [show pyReplaceAux pat rep r 0 = pyReplace r pat rep from rfl, ih hr]

theorem pyReplace_front (t rep : Str) : ∀ (a b : Str), (∀ c ∈ a, c ≠ '_') →
    pyReplace (a ++ b) ('_' :: t) rep = a ++ pyReplace b ('_' :: t) rep := by
  intro a
  induction a with
  | nil => intro b _; rfl
  | cons c a' ih =>
    intro b ha
    rw [List.cons_append]
    show pyReplaceAux ('_' :: t) rep (c :: (a' ++ b)) 0 = _
    rw [show pyReplaceAux ('_' :: t) rep (c :: (a' ++ b)) 0 =
      if ('_' :: t) ≠ [] ∧ begWith ('_' :: t) (c :: (a' ++ b)) = true then
        rep ++ pyReplaceAux ('_' :: t) rep (a' ++ b) (('_' :: t).length - 1)
      else c :: pyReplaceAux ('_' :: t) rep (a' ++ b) 0 from rfl]
    rw [if_neg (by
      rintro ⟨-, hbt⟩
      simp only [begWith, Bool.and_eq_true, beq_iff_eq] at hbt
      exact ha c (List.mem_cons_self _ _) hbt.1.symm)]
    rw [show pyReplaceAux ('_' :: t) rep (a' ++ b) 0 =
      pyReplace (a' ++ b) ('_' :: t) rep from rfl]
    rw [ih b (fun x hx => ha x (List.mem_cons_of_mem _ hx)), List.cons_append]

theorem restore_cons (t p b : Str) (prs : List (Str × Str)) :
    restore_code_blocks t ((p, b) :: prs) =
      restore_code_blocks (pyReplace t p b) prs := rfl

theorem restore_front : ∀ (prs : List (Str × Str)) (a b : Str),
    (∀ c ∈ a, c ≠ '_') → (∀ pr ∈ prs, ∃ u, pr.1 = '_' :: u) →
    restore_code_blocks (a ++ b) prs = a ++ restore_code_blocks b prs := by
  intro prs
  induction prs with
  | nil => intro a b _ _; rfl
  | cons pr rest ih =>
    intro a b ha hp
    obtain ⟨p, bl⟩ := pr
    obtain ⟨u, hu⟩ := hp (p, bl) (List.mem_cons_self _ _)
    simp only at hu
    rw [restore_cons, restore_cons, hu, pyReplace_front u bl a b ha]
    exact ih a (pyReplace b ('_' :: u) bl) ha
      (fun q hq => hp q (List.mem_cons_of_mem _ hq))

/-- Core roundtrip: on an underscore-free input, each placeholder
substitution of `restore_code_blocks` hits exactly the placeholder instance
that `protect_code_blocks` wrote, restoring the original text. -/
theorem protect_restore_go : ∀ (fuel : ℕ) (s : Str) (i : ℕ), s.length ≤ fuel →
    (∀ c ∈ s, c ≠ '_') →
    restore_code_blocks (protectGo fuel s i).1 (protectGo fuel s i).2 = s := by
  intro fuel
  induction fuel with
  | zero => intro s i _ _; rfl
  | succ f ih =>
    intro s i hlen h
    cases s with
    | nil => rfl
    | cons c rest =>
      cases hm : matchCodeAt (c :: rest) with
      | some L =>
        have hL1 : 1 ≤ L := matchCodeAt_pos _ _ hm
        have hdl : ((c :: rest).drop L).length ≤ f := by
          simp only [List.length_drop, List.length_cons] at hlen ⊢
          omega
        have hdu : ∀ x ∈ (c :: rest).drop L, x ≠ '_' :=
          fun x hx => h x (List.drop_subset _ _ hx)
        have hmix : Mixed (i + 1) (protectGo f ((c :: rest).drop L) (i + 1)).1 :=
          protectGo_mixed f _ (i + 1) hdu
        have hno : hasOcc (placeholder i)
            (protectGo f ((c :: rest).drop L) (i + 1)).1 = false := by
          by_contra hcon
          rw [Bool.not_eq_false] at hcon
          have := mixed_hasOcc_ge (i + 1) _ hmix i hcon
          omega
        have hstart : ∀ pr ∈ (protectGo f ((c :: rest).drop L) (i + 1)).2,
            ∃ u, pr.1 = '_' :: u := by
          intro pr hpr
          obtain ⟨j, _, hj⟩ := protectGo_pairs f ((c :: rest).drop L) (i + 1) pr hpr
          exact ⟨_, by rw [hj, placeholder_expand]⟩
        have hblock : ∀ x ∈ (c :: rest).take L, x ≠ '_' :=
          fun x hx => h x (List.take_subset _ _ hx)
        have heq : protectGo (f + 1) (c :: rest) i =
            (placeholder i ++ (protectGo f ((c :: rest).drop L) (i + 1)).1,
             (placeholder i, (c :: rest).take L) ::
               (protectGo f ((c :: rest).drop L) (i + 1)).2) := by
          simp only [protectGo, hm]
        rw [heq, restore_cons,
          pyReplace_head_match (placeholder i) ((c :: rest).take L) _
            (placeholder_ne_nil i),
          pyReplace_no_occ (placeholder i) ((c :: rest).take L) _ hno,
          restore_front _ ((c :: rest).take L) _ hblock hstart,
          ih ((c :: rest).drop L) (i + 1) hdl hdu]
        exact List.take_append_drop L (c :: rest)
      | none =>
        have heq : protectGo (f + 1) (c :: rest) i =
            (c :: (protectGo f rest i).1, (protectGo f rest i).2) := by
          simp only [protectGo, hm]
        have hstart : ∀ pr ∈ (protectGo f rest i).2, ∃ u, pr.1 = '_' :: u := by
          intro pr hpr
          obtain ⟨j, _, hj⟩ := protectGo_pairs f rest i pr hpr
          exact ⟨_, by rw [hj, placeholder_expand]⟩
        rw [heq]
        rw [show (c :: (protectGo f rest i).1 : Str) =
          [c] ++ (protectGo f rest i).1 from rfl]
        rw [restore_front _ [c] _ (by
            intro x hx
            simp only [List.mem_singleton] at hx
            subst hx
            exact h x (List.mem_cons_self _ _)) hstart]
        rw [ih rest i (by simp only [List.length_cons] at hlen; omega)
          (fun x hx => h x (List.mem_cons_of_mem _ hx))]
        rfl

/-- C9 amended: protecting code blocks and then restoring them is the
identity on every text that contains no underscore character.  (The
claim's own proviso — that the text contain no substring of the
placeholder form `__CODE_BLOCK_<i>__` — is not sufficient; see the
counterexample.) -/
theorem C9_protect_restore_roundtrip (text : Str) (h : ∀ c ∈ text, c ≠ '_') :
    restore_code_blocks (protect_code_blocks text).1 (protect_code_blocks text).2 =
      text :=
  protect_restore_go text.length text 0 le_rfl h

theorem C9_protect_restore_roundtrip_witness :
    (∀ c ∈ ("a```py\nprint(1)\n``` b".toList : Str), c ≠ '_') ∧
    restore_code_blocks
        (protect_code_blocks ("a```py\nprint(1)\n``` b".toList)).1
        (protect_code_blocks ("a```py\nprint(1)\n``` b".toList)).2 =
      "a```py\nprint(1)\n``` b".toList :=
  ⟨by decide, C9_protect_restore_roundtrip ("a```py\nprint(1)\n``` b".toList) (by decide)⟩

/-- C9 counterexample: the text `__CODE_BLOCK_0` + a fenced code block
contains no substring of the placeholder form `__CODE_BLOCK_<i>__` (the
trailing double underscore is missing), yet protecting and restoring does
not reproduce it: the protected text is `__CODE_BLOCK_0__CODE_BLOCK_0__`,
and restoring replaces its leftmost placeholder occurrence — which starts
at offset 0, not at the offset where `protect_code_blocks` wrote it. -/
theorem C9_roundtrip_counterexample :
    (∀ i : ℕ,
      hasOcc (placeholder i) ("__CODE_BLOCK_0```c\nbody\n```".toList) = false) ∧
    restore_code_blocks
        (protect_code_blocks ("__CODE_BLOCK_0```c\nbody\n```".toList)).1
        (protect_code_blocks ("__CODE_BLOCK_0```c\nbody\n```".toList)).2 ≠
      "__CODE_BLOCK_0```c\nbody\n```".toList := by
  constructor
  · intro i
    by_contra hcon
    rw [Bool.not_eq_false, hasOcc_iff] at hcon
    obtain ⟨a, b, hab⟩ := hcon
    rw [List.append_assoc] at hab
    have hphlen : (placeholder i).length = 13 + ((natStr i).length + 2) := by
      rw [placeholder_split]
      simp only [List.length_append, List.length_cons, List.length_nil]
    have hns1 : 1 ≤ (natStr i).length := List.length_pos.mpr (natStr_ne_nil i)
    have hlens : (27 : ℕ) = a.length + ((placeholder i).length + b.length) := by
      have := congrArg List.length hab
      simpa [List.length_append] using this
    have ha11 : a.length ≤ 11 := by omega
    have hdrop : ("__CODE_BLOCK_0```c\nbody\n```".toList : Str).drop a.length =
        placeholder i ++ b := by
      rw [hab, List.drop_left]
    have hbegstem : begWith
        (['_', '_', 'C', 'O', 'D', 'E', '_', 'B', 'L', 'O', 'C', 'K', '_'] : Str)
        (("__CODE_BLOCK_0```c\nbody\n```".toList : Str).drop a.length) = true := by
      apply begWith_of_append _ (natStr i ++ ['_', '_'])
      rw [← placeholder_split, begWith_iff]
      exact ⟨b, hdrop⟩
    have hstem : ∀ n : Fin 12, n.val ≠ 0 →
        begWith (['_', '_', 'C', 'O', 'D', 'E', '_', 'B', 'L', 'O', 'C', 'K', '_'] : Str)
          (("__CODE_BLOCK_0```c\nbody\n```".toList : Str).drop n.val) = false := by
      decide
    have ha0 : a.length = 0 := by
      by_contra hne
      have := hstem ⟨a.length, by omega⟩ hne
      rw [this] at hbegstem
      exact Bool.false_ne_true hbegstem
    have ha : a = [] := List.length_eq_zero.mp ha0
    subst ha
    rw [List.nil_append, placeholder_split] at hab
    have hsplit : ("__CODE_BLOCK_0```c\nbody\n```".toList : Str) =
        ['_', '_', 'C', 'O', 'D', 'E', '_', 'B', 'L', 'O', 'C', 'K', '_'] ++
          "0```c\nbody\n```".toList := rfl
    rw [hsplit, List.append_assoc] at hab
    have hcancel := List.append_cancel_left hab
    simp only [List.append_assoc, List.cons_append, List.nil_append] at hcancel
    by_cases hi : i = 0
    · subst hi
      rw [show natStr 0 = ['0'] from rfl] at hcancel
      simp only [List.cons_append, List.nil_append] at hcancel
      injection hcancel with h1 h2
      injection h2 with h3 h4
      exact absurd h3 (by decide)
    · cases hns : natStr i with
      | nil => exact natStr_ne_nil i hns
      | cons c0 tl =>
        rw [hns, List.cons_append] at hcancel
        injection hcancel with h1 h2
        exact natStr_head_ne_zero i hi tl (by rw [hns, ← h1])
  · decide

theorem C3_headerless_counterexample :
    (semantic_chunk ("aaaaaaa".toList) ("note.md".toList) none 1 5 2).map
        (fun c => c.text) = ["aaaaaaa".toList] ∧
    ¬ (("aaaaaaa".toList : Str).length : ℤ) ≤ 5 ∧
    (protect_code_blocks ("aaaaaaa".toList)).2 = [] := by
  refine ⟨?_, by decide, ?_⟩ <;> decide

end Obrag
